import Mathlib

/-!
Shallow embedding of `northbright/luckydraw-go` (package `luckydraw`,
file `luckydraw.go`; the second source file is a byte-identical copy up to
renaming the receiver type `Draw`/`Lottery`).

Modelling conventions:
* Go maps become association lists with unique keys (`List (κ × ν)`).
  Map assignment is `mapInsert` (drop the old binding, append the new one);
  deletion is `mapErase`; lookup is `mapLookup`.  Go's unspecified map
  iteration order is made explicit: functions that iterate a map take an
  extra argument `ord`, a proposed key order, which is used when it is a
  permutation of the map's keys and ignored otherwise (`iterKeys`).
* `math/rand` index choices in `draw` become an oracle `List Nat`; the
  index used at each step is `oracle element % remaining length`, exactly
  the range `rand.Intn` produces.
* `crypto/md5` + `fmt.Sprintf("%X", ·)` is abstracted as a parameter
  `h : String → String` applied to the exact byte stream the Go code feeds
  into the hash (`winnersHashInput`); the claims below hold or fail
  uniformly in `h`.
* Each state-mutating method returns `Except Err ρ × Lottery`: the Go
  method's (result, error) pair together with the receiver state after the
  call, so that error paths that leave partial state (the CSV bulk loads)
  are represented faithfully.
-/

deriving instance DecidableEq for Except

namespace LuckyDraw

structure Participant where
  id : String
  name : String

deriving DecidableEq, Repr

structure Prize where
  no : Int
  name : String
  amount : Int
  desc : String

deriving DecidableEq, Repr

/-- Error values of the package, one constructor per `Err...` variable. -/
inductive Err where
  | participantsCSV
  | invalidNumber
  | prizeNo
  | winnersExistBeforeDraw
  | prizeAmount
  | noAvailableParticipants
  | noOriginalWinnersBeforeRedraw
  | revokedWinnerNotMatch
  | winnersNotExistBeforeReDraw
  | redrawPrizeAmount
  | checksum

deriving DecidableEq, Repr

/-- Go map lookup `v, ok := m[k]` on the association-list model. -/
def mapLookup {α β : Type} [DecidableEq α] (m : List (α × β)) (k : α) : Option β :=
  (m.find? (fun kv => kv.1 == k)).map (fun kv => kv.2)

/-- Go map assignment `m[k] = v`: remove any old binding of `k`, add the new one. -/
def mapInsert {α β : Type} [DecidableEq α] (m : List (α × β)) (k : α) (v : β) :
    List (α × β) :=
  m.filter (fun kv => kv.1 != k) ++ [(k, v)]

/-- Go map deletion `delete(m, k)`. -/
def mapErase {α β : Type} [DecidableEq α] (m : List (α × β)) (k : α) : List (α × β) :=
  m.filter (fun kv => kv.1 != k)

/-- Iteration order of a Go map: the caller-supplied order `ord` when it is a
permutation of the key list, the key list itself otherwise. -/
def iterKeys {α β : Type} [DecidableEq α] (m : List (α × β)) (ord : List α) : List α :=
  if List.Perm ord (m.map Prod.fst) then ord else m.map Prod.fst

/-- Session state; `Draw` in `luckydraw.go`, `Lottery` in the copy. -/
structure Lottery where
  name : String
  prizes : List (Int × Prize)
  participants : List (String × Participant)
  winners : List (Int × List Participant)

deriving DecidableEq, Repr

/-- Go `New`. -/
def goNew (name : String) : Lottery := ⟨name, [], [], []⟩

/-- Go `SetPrize`. -/
def goSetPrize (l : Lottery) (no : Int) (name : String) (amount : Int) (desc : String) :
    Lottery :=
  { l with prizes := mapInsert l.prizes no ⟨no, name, amount, desc⟩ }

/-- Go `participantMapToSlice`: list the map's values in (unspecified) map
iteration order, here supplied as `ord`. -/
def participantMapToSlice (m : List (String × Participant)) (ord : List String) :
    List Participant :=
  (iterKeys m ord).filterMap (fun k => mapLookup m k)

/-- Go `participantSliceToMap`. -/
def participantSliceToMap (s : List Participant) : List (String × Participant) :=
  s.foldl (fun m p => mapInsert m p.id p) []

/-- Go `copyParticipantMap`; copying is the identity on the value-level model. -/
def copyParticipantMap (m : List (String × Participant)) : List (String × Participant) := m

/-- Go `availableParticipants`: copy the participant map, delete every current
winner's id (over all prizes), and list the remainder.  The `prizeNo`
argument is unused, exactly as in the source. -/
def availableParticipants (l : Lottery) (prizeNo : Int) (ord : List String) :
    List Participant :=
  let m := l.winners.foldl (fun acc kv => kv.2.foldl (fun a w => mapErase a w.id) acc)
    (copyParticipantMap l.participants)
  participantMapToSlice m ord

/-- Go `removeParticipant`: overwrite index `i` with the last element and drop
the last element (O(1) unordered removal).  Out-of-range indices and the
empty list are returned unchanged, as in the source. -/
def removeParticipant (s : List Participant) (i : Nat) : List Participant :=
  match s.getLast? with
  | none => s
  | some last => if i ≥ s.length then s else (s.set i last).dropLast

/-- Loop body of Go `draw`: pick `oracle % n` as the random index, collect the
participant there, swap-remove it, and repeat `fuel` times. -/
def drawLoop : Nat → List Participant → List Nat → List Participant
  | 0, _, _ => []
  | _ + 1, [], _ => []
  | n + 1, p :: ps, orc =>
    (p :: ps).getD (orc.headD 0 % (p :: ps).length) p ::
      drawLoop n (removeParticipant (p :: ps) (orc.headD 0 % (p :: ps).length)) orc.tail

/-- Go `draw` (the package-level sampling function): empty result when the
prize amount is non-positive or there are no candidates, otherwise sample
`min prizeAmount (number of candidates)` participants without replacement. -/
def goDraw (prizeAmount : Int) (participants : List Participant) (orc : List Nat) :
    List Participant :=
  if prizeAmount ≤ 0 ∨ participants.length = 0 then []
  else drawLoop (min prizeAmount.toNat participants.length) participants orc

/-- Go method `Draw`. -/
def goDrawOp (l : Lottery) (prizeNo : Int) (orc : List Nat) (ord : List String) :
    Except Err (List Participant) × Lottery :=
  match mapLookup l.prizes prizeNo with
  | none => (.error .prizeNo, l)
  | some prize =>
    if prize.amount < 1 then (.error .prizeAmount, l)
    else if (mapLookup l.winners prizeNo).isSome then (.error .winnersExistBeforeDraw, l)
    else
      let ps := availableParticipants l prizeNo ord
      if ps.length = 0 then (.error .noAvailableParticipants, l)
      else
        let ws := goDraw prize.amount ps orc
        (.ok ws, { l with winners := mapInsert l.winners prizeNo ws })

/-- Revocation loop of Go `Revoke`: check each revoked winner's id against the
current (locally copied) winner map, deleting as it goes; the first miss
aborts the whole call. -/
def revokeLoop (m : List (String × Participant)) :
    List Participant → Except Err (List (String × Participant))
  | [] => .ok m
  | r :: rest =>
    if (mapLookup m r.id).isSome then revokeLoop (mapErase m r.id) rest
    else .error .revokedWinnerNotMatch

/-- Go method `Revoke`. -/
def goRevoke (l : Lottery) (prizeNo : Int) (revoked : List Participant)
    (ord : List String) : Except Err Unit × Lottery :=
  match mapLookup l.prizes prizeNo with
  | none => (.error .prizeNo, l)
  | some prize =>
    if prize.amount < 1 then (.error .prizeAmount, l)
    else match mapLookup l.winners prizeNo with
    | none => (.error .noOriginalWinnersBeforeRedraw, l)
    | some ws =>
      match revokeLoop (participantSliceToMap ws) revoked with
      | .error e => (.error e, l)
      | .ok m =>
        (.ok (), { l with winners := mapInsert l.winners prizeNo (participantMapToSlice m ord) })

/-- Go method `Redraw`. -/
def goRedraw (l : Lottery) (prizeNo : Int) (amount : Int) (orc : List Nat)
    (ord : List String) : Except Err (List Participant) × Lottery :=
  match mapLookup l.prizes prizeNo with
  | none => (.error .prizeNo, l)
  | some prize =>
    if prize.amount < 1 then (.error .prizeAmount, l)
    else match mapLookup l.winners prizeNo with
    | none => (.error .winnersNotExistBeforeReDraw, l)
    | some ws =>
      if amount > prize.amount - (ws.length : Int) then (.error .redrawPrizeAmount, l)
      else
        let ps := availableParticipants l prizeNo ord
        if ps.length = 0 then (.error .noAvailableParticipants, l)
        else
          let newWs := goDraw amount ps orc
          (.ok newWs, { l with winners := mapInsert l.winners prizeNo (ws ++ newWs) })

/-- Go method `ClearWinners`: unconditionally set the winner slice to empty. -/
def goClearWinners (l : Lottery) (prizeNo : Int) : Lottery :=
  { l with winners := mapInsert l.winners prizeNo [] }

/-- Go method `ClearAllWinners`. -/
def goClearAllWinners (l : Lottery) : Lottery :=
  { l with winners := [] }

/-- Leading and trailing spaces removed: Go `strings.Trim(s, " ")`. -/
def trimSpaces (s : String) : String :=
  String.mk (((s.data.dropWhile (fun c => c = ' ')).reverse.dropWhile
    (fun c => c = ' ')).reverse)

/-- Go `strconv.Atoi`: optional sign followed by at least one decimal digit. -/
def goAtoi (s : String) : Option Int :=
  match s.data with
  | [] => none
  | c :: rest =>
    let signed : Bool × List Char :=
      if c = '-' then (true, rest) else if c = '+' then (false, rest) else (false, c :: rest)
    if signed.2 = [] ∨ ¬ signed.2.all Char.isDigit then none
    else
      let n : Nat := signed.2.foldl (fun acc d => acc * 10 + (d.toNat - 48)) 0
      some (if signed.1 then -(n : Int) else (n : Int))

/-- Body of one iteration of the Go `LoadPrizesCSV` row loop: field-count
check, then `Atoi` of the trimmed `no` and `amount` fields. -/
def parsePrizeRow (row : List String) : Except Err Prize :=
  if row.length ≠ 4 then .error .participantsCSV
  else match goAtoi (trimSpaces (row.getD 0 "")) with
  | none => .error .invalidNumber
  | some no =>
    match goAtoi (trimSpaces (row.getD 2 "")) with
    | none => .error .invalidNumber
    | some amount => .ok ⟨no, row.getD 1 "", amount, row.getD 3 ""⟩

/-- Row loop of Go `LoadPrizesCSV` (runs after the map has been cleared). -/
def loadPrizesLoop (l : Lottery) : List (List String) → Except Err Unit × Lottery
  | [] => (.ok (), l)
  | row :: rest =>
    match parsePrizeRow row with
    | .error e => (.error e, l)
    | .ok prize => loadPrizesLoop { l with prizes := mapInsert l.prizes prize.no prize } rest

/-- Go `LoadPrizesCSV` on already-tokenized rows: clear the prize map, skip
the header row, then load data rows in order. -/
def goLoadPrizesCSV (l : Lottery) (rows : List (List String)) : Except Err Unit × Lottery :=
  loadPrizesLoop { l with prizes := [] } rows.tail

/-- Row loop of Go `LoadParticipantsCSV`. -/
def loadParticipantsLoop (l : Lottery) : List (List String) → Except Err Unit × Lottery
  | [] => (.ok (), l)
  | row :: rest =>
    if row.length ≠ 2 then (.error .participantsCSV, l)
    else
      loadParticipantsLoop
        { l with participants :=
            mapInsert l.participants (row.getD 0 "") ⟨row.getD 0 "", row.getD 1 ""⟩ } rest

/-- Go `LoadParticipantsCSV` on already-tokenized rows. -/
def goLoadParticipantsCSV (l : Lottery) (rows : List (List String)) :
    Except Err Unit × Lottery :=
  loadParticipantsLoop { l with participants := [] } rows.tail

/-- Byte stream Go `computeWinnersHash` feeds into md5: prize numbers in
ascending order, each followed by its winners' ids and names in sequence
order, all concatenated without separators. -/
def winnersHashInput (w : List (Int × List Participant)) : String :=
  let keys := List.insertionSort (fun a b => a ≤ b) (w.map Prod.fst)
  String.join (keys.map (fun no =>
    toString no ++ String.join (((mapLookup w no).getD []).map (fun p => p.id ++ p.name))))

/-- Decoded persisted record (Go `SaveData` after `json.Decode`); maps that
were missing or null in the JSON decode to `none`, i.e. Go `nil`. -/
structure SaveData where
  name : String
  prizes : Option (List (Int × Prize))
  participants : Option (List (String × Participant))
  winners : Option (List (Int × List Participant))
  lastUpdated : String
  checksum : String

deriving DecidableEq, Repr

/-- Go method `Load` on a decoded record, with `h` standing for the
uppercase-hex md5 digest function. -/
def goLoad (h : String → String) (l : Lottery) (data : SaveData) :
    Except Err Unit × Lottery :=
  if h (winnersHashInput (data.winners.getD [])) ≠ data.checksum then (.error .checksum, l)
  else
    (.ok (), { l with
      prizes := data.prizes.getD []
      participants := data.participants.getD []
      winners := data.winners.getD [] })

/-! Association-list map lemmas. -/

open List

/-! Deleting a set of keys, and the flattened winner-id list. -/

/-- Delete every key of `ks` from `m` (the accumulated effect of the deletion
loops in `availableParticipants` and `Revoke`). -/
def eraseAll {α β : Type} [DecidableEq α] (m : List (α × β)) (ks : List α) :
    List (α × β) :=
  ks.foldl (fun a k => mapErase a k) m

/-- All winner ids of a winners map, across prizes, in entry order. -/
def flatIDs (w : List (Int × List Participant)) : List String :=
  w.flatMap (fun kv => kv.2.map Participant.id)

/-- Key-value consistency of the participant map: every entry is keyed by its
participant's id, as Go's `m[p.ID] = p` assignments guarantee. -/
def consistentP (m : List (String × Participant)) : Prop :=
  ∀ kv ∈ m, kv.1 = kv.2.id

/-! Session well-formedness: what Go's map semantics and the draw/revoke
operations maintain, and what the winner-disjointness claim needs. -/

/-- Well-formed session state: the participant map is keyed by participant id
with unique keys, the winners map has unique keys, and no participant id
occurs twice across (or within) the winner sequences. -/
def Wf (l : Lottery) : Prop :=
  (l.participants.map Prod.fst).Nodup ∧ consistentP l.participants ∧
  (l.winners.map Prod.fst).Nodup ∧ (flatIDs l.winners).Nodup

instance (m : List (String × Participant)) : Decidable (consistentP m) := by
  unfold consistentP
  infer_instance

instance (l : Lottery) : Decidable (Wf l) := by
  unfold Wf
  infer_instance

/-- Well-formedness of a decoded record: what a record produced by `Save` from
a well-formed session always satisfies (unique keys, id-keyed participant
entries, and disjoint winner sequences). -/
def recordWf (data : SaveData) : Prop :=
  ((data.participants.getD []).map Prod.fst).Nodup ∧
  consistentP (data.participants.getD []) ∧
  (((data.winners.getD []).map Prod.fst)).Nodup ∧
  (flatIDs (data.winners.getD [])).Nodup

instance (data : SaveData) : Decidable (recordWf data) := by
  unfold recordWf
  infer_instance

/-! Reachability by public operations. -/

/-- States reachable from a fresh session by any sequence of the public
operations, every input, random oracle, map iteration order and `Load`
record chosen arbitrarily (claim C1's notion of reachability). -/
inductive Reach : Lottery → Prop where
  | fresh (name : String) : Reach (goNew name)
  | setPrize {l : Lottery} (no : Int) (name : String) (amount : Int) (desc : String) :
      Reach l → Reach (goSetPrize l no name amount desc)
  | loadPrizes {l : Lottery} (rows : List (List String)) :
      Reach l → Reach (goLoadPrizesCSV l rows).2
  | loadParticipants {l : Lottery} (rows : List (List String)) :
      Reach l → Reach (goLoadParticipantsCSV l rows).2
  | drawOp {l : Lottery} (prizeNo : Int) (orc : List Nat) (ord : List String) :
      Reach l → Reach (goDrawOp l prizeNo orc ord).2
  | revoke {l : Lottery} (prizeNo : Int) (revoked : List Participant) (ord : List String) :
      Reach l → Reach (goRevoke l prizeNo revoked ord).2
  | redraw {l : Lottery} (prizeNo : Int) (amount : Int) (orc : List Nat)
      (ord : List String) : Reach l → Reach (goRedraw l prizeNo amount orc ord).2
  | clearWinners {l : Lottery} (prizeNo : Int) : Reach l → Reach (goClearWinners l prizeNo)
  | clearAllWinners {l : Lottery} : Reach l → Reach (goClearAllWinners l)
  | load {l : Lottery} (h : String → String) (data : SaveData) :
      Reach l → Reach (goLoad h l data).2

/-- Reachability as in `Reach`, except that every record handed to `Load`
is well-formed in the sense of `recordWf` (as any record written by `Save`
from a well-formed session is). -/
inductive ReachR : Lottery → Prop where
  | fresh (name : String) : ReachR (goNew name)
  | setPrize {l : Lottery} (no : Int) (name : String) (amount : Int) (desc : String) :
      ReachR l → ReachR (goSetPrize l no name amount desc)
  | loadPrizes {l : Lottery} (rows : List (List String)) :
      ReachR l → ReachR (goLoadPrizesCSV l rows).2
  | loadParticipants {l : Lottery} (rows : List (List String)) :
      ReachR l → ReachR (goLoadParticipantsCSV l rows).2
  | drawOp {l : Lottery} (prizeNo : Int) (orc : List Nat) (ord : List String) :
      ReachR l → ReachR (goDrawOp l prizeNo orc ord).2
  | revoke {l : Lottery} (prizeNo : Int) (revoked : List Participant) (ord : List String) :
      ReachR l → ReachR (goRevoke l prizeNo revoked ord).2
  | redraw {l : Lottery} (prizeNo : Int) (amount : Int) (orc : List Nat)
      (ord : List String) : ReachR l → ReachR (goRedraw l prizeNo amount orc ord).2
  | clearWinners {l : Lottery} (prizeNo : Int) :
      ReachR l → ReachR (goClearWinners l prizeNo)
  | clearAllWinners {l : Lottery} : ReachR l → ReachR (goClearAllWinners l)
  | load {l : Lottery} (h : String → String) (data : SaveData) (hd : recordWf data) :
      ReachR l → ReachR (goLoad h l data).2

/-- A participant appearing in two prizes of a persisted record with a valid
checksum: `Load` accepts it without any disjointness check. -/
def pDup : Participant := ⟨"a", "Alice"⟩

/-- A decoded record whose winners field lists `pDup` under prize 1 and
prize 2, carrying the matching checksum for the identity digest function. -/
def dupRecord : SaveData :=
  ⟨"s", none, none, some [(1, [pDup]), (2, [pDup])], "",
   winnersHashInput [(1, [pDup]), (2, [pDup])]⟩

/-- The session state after `Load`ing `dupRecord` into a fresh session. -/
def dupState : Lottery := (goLoad (fun s => s) (goNew "s") dupRecord).2

/-! Concrete test fixtures used by witnesses and counterexamples. -/

def pa : Participant := ⟨"a", "Alice"⟩

def pb : Participant := ⟨"b", "Bob"⟩

def pc : Participant := ⟨"c", "Carol"⟩

def pd : Participant := ⟨"d", "Dave"⟩

/-- Participant CSV rows (with header) for three participants. -/
def rows3 : List (List String) :=
  [["id", "name"], ["a", "Alice"], ["b", "Bob"], ["c", "Carol"]]

/-- Participant CSV rows (with header) for four participants. -/
def rows4 : List (List String) :=
  [["id", "name"], ["a", "Alice"], ["b", "Bob"], ["c", "Carol"], ["d", "Dave"]]

/-- Fresh session with prize 1 (3 slots) and participants a, b, c. -/
def fix3 : Lottery :=
  (goLoadParticipantsCSV (goSetPrize (goNew "s") 1 "First" 3 "gold") rows3).2

/-- `fix3` after `Draw(1)` whose oracle picks a, b, c in that order. -/
def fix3d : Lottery := (goDrawOp fix3 1 [0, 1, 0] []).2

/-- Fresh session with prize 1 (3 slots) and participants a, b, c, d. -/
def fix4 : Lottery :=
  (goLoadParticipantsCSV (goSetPrize (goNew "s") 1 "First" 3 "gold") rows4).2

/-- `fix4` after `Draw(1)`, which draws winners a, b, d. -/
def fix4d : Lottery := (goDrawOp fix4 1 [0, 1, 0] []).2

/-- `fix4d` after `SetPrize` lowers prize 1's amount from 3 to 1 while its
three winners are still recorded. -/
def fix4low : Lottery := goSetPrize fix4d 1 "First" 1 "gold"

/-- Record with one participant and one winner for exercising `Load`. -/
def c4rec : SaveData :=
  ⟨"n", none, some [("a", pa)], some [(1, [pb])], "",
   winnersHashInput [(1, [pb])]⟩

/-- Original record for C5: a single winner with id "AB" and name "C" under
prize 1, with the stored checksum valid for the identity digest. -/
def c5orig : SaveData :=
  ⟨"s", none, none, some [(1, [⟨"AB", "C"⟩])], "",
   winnersHashInput [(1, [⟨"AB", "C"⟩])]⟩

/-- `c5orig` with the single winner's id and name modified (one character
moved across the undelimited id/name boundary); stored checksum untouched. -/
def c5tampered : SaveData := { c5orig with winners := some [(1, [⟨"A", "BC"⟩])] }

/-- Prize-map effect of a run of successfully parsed rows in order (the rows
the Go loop committed before any failure). -/
def applyPrizeRows (m : List (Int × Prize)) : List (List String) → List (Int × Prize)
  | [] => m
  | row :: rest =>
    match parsePrizeRow row with
    | .ok prize => applyPrizeRows (mapInsert m prize.no prize) rest
    | .error _ => m

theorem isSome_optionMap {α β : Type} (f : α → β) (o : Option α) :
    (o.map f).isSome = o.isSome := by
  cases o <;> rfl

theorem mapLookup_mem {α β : Type} [DecidableEq α] {m : List (α × β)} {k : α} {v : β}
    (h : mapLookup m k = some v) : (k, v) ∈ m := by
  unfold mapLookup at h
  rcases Option.map_eq_some'.mp h with ⟨kv, hfind, hv⟩
  have hk : kv.1 = k := by simpa using List.find?_some hfind
  have hmem := List.mem_of_find?_eq_some hfind
  have : kv = (k, v) := by
    cases kv
    simp_all
  simpa [this] using hmem

theorem mapLookup_isSome_iff {α β : Type} [DecidableEq α] {m : List (α × β)} {k : α} :
    (mapLookup m k).isSome ↔ ∃ v, (k, v) ∈ m := by
  unfold mapLookup
  rw [isSome_optionMap]
  rw [List.find?_isSome]
  constructor
  · rintro ⟨⟨k2, v⟩, hmem, hk⟩
    simp only [beq_iff_eq] at hk
    exact ⟨v, by simpa [hk] using hmem⟩
  · rintro ⟨v, hmem⟩
    exact ⟨(k, v), hmem, by simp⟩

theorem mapLookup_eq_none_iff {α β : Type} [DecidableEq α] {m : List (α × β)} {k : α} :
    mapLookup m k = none ↔ ∀ v, (k, v) ∉ m := by
  rw [← Option.not_isSome_iff_eq_none, mapLookup_isSome_iff]
  push_neg
  rfl

theorem mem_mapErase {α β : Type} [DecidableEq α] {m : List (α × β)} {k k2 : α} {v : β} :
    (k2, v) ∈ mapErase m k ↔ (k2, v) ∈ m ∧ k2 ≠ k := by
  simp [mapErase, List.mem_filter]

theorem mapErase_sublist {α β : Type} [DecidableEq α] (m : List (α × β)) (k : α) :
    mapErase m k <+ m :=
  List.filter_sublist m

theorem keysNodup_mapErase {α β : Type} [DecidableEq α] {m : List (α × β)} (k : α)
    (h : (m.map Prod.fst).Nodup) : ((mapErase m k).map Prod.fst).Nodup :=
  List.Nodup.sublist (List.Sublist.map Prod.fst (mapErase_sublist m k)) h

theorem keys_mapErase_not_mem {α β : Type} [DecidableEq α] (m : List (α × β)) (k : α) :
    k ∉ (mapErase m k).map Prod.fst := by
  intro hmem
  rcases List.mem_map.mp hmem with ⟨kv, hkv, hfst⟩
  rcases kv with ⟨k1, v⟩
  rcases (mem_mapErase.mp hkv) with ⟨_, hne⟩
  exact hne (by simpa using hfst)

theorem keysNodup_mapInsert {α β : Type} [DecidableEq α] {m : List (α × β)} (k : α) (v : β)
    (h : (m.map Prod.fst).Nodup) : ((mapInsert m k v).map Prod.fst).Nodup := by
  unfold mapInsert
  rw [List.map_append]
  refine List.Nodup.append (keysNodup_mapErase k h) (by simp) ?_
  intro a ha hb
  simp only [List.map_cons, List.map_nil, List.mem_singleton] at hb
  exact keys_mapErase_not_mem m k (hb ▸ ha)

theorem mapLookup_mapInsert_self {α β : Type} [DecidableEq α] (m : List (α × β)) (k : α)
    (v : β) : mapLookup (mapInsert m k v) k = some v := by
  unfold mapLookup mapInsert
  rw [List.find?_append]
  have : List.find? (fun kv => kv.1 == k) (List.filter (fun kv => kv.1 != k) m) = none := by
    rw [List.find?_eq_none]
    intro kv hkv
    simp only [List.mem_filter, bne_iff_ne] at hkv
    simp [hkv.2]
  simp [this]

theorem mapLookup_mapErase_ne {α β : Type} [DecidableEq α] (m : List (α × β)) {k k2 : α}
    (h : k2 ≠ k) : mapLookup (mapErase m k) k2 = mapLookup m k2 := by
  unfold mapLookup mapErase
  congr 1
  induction m with
  | nil => rfl
  | cons kv rest ih =>
    by_cases hk : kv.1 = k
    · have : (kv.1 != k) = false := by simp [hk]
      simp only [List.filter_cons, this, Bool.false_eq_true, if_false]
      rw [ih]
      have : (kv.1 == k2) = false := by
        simp only [beq_eq_false_iff_ne]
        rw [hk]
        exact fun hh => h hh.symm
      simp [List.find?_cons, this]
    · have : (kv.1 != k) = true := by simp [hk]
      simp only [List.filter_cons, this, if_true]
      rw [List.find?_cons, List.find?_cons]
      cases hc : (kv.1 == k2) <;> simp [hc, ih]

theorem mapLookup_mapErase_self {α β : Type} [DecidableEq α] (m : List (α × β)) (k : α) :
    mapLookup (mapErase m k) k = none := by
  rw [mapLookup_eq_none_iff]
  intro v hv
  exact (mem_mapErase.mp hv).2 rfl

theorem mapInsert_eq_erase_append {α β : Type} [DecidableEq α] (m : List (α × β)) (k : α)
    (v : β) : mapInsert m k v = mapErase m k ++ [(k, v)] := rfl

theorem mapLookup_mapInsert_ne {α β : Type} [DecidableEq α] (m : List (α × β)) {k k2 : α}
    (v : β) (h : k2 ≠ k) : mapLookup (mapInsert m k v) k2 = mapLookup m k2 := by
  rw [mapInsert_eq_erase_append]
  have h2 : mapLookup ([(k, v)] : List (α × β)) k2 = none := by
    rw [mapLookup_eq_none_iff]
    intro w hw
    simp only [List.mem_singleton, Prod.mk.injEq] at hw
    exact h hw.1
  unfold mapLookup at h2 ⊢
  rw [List.find?_append]
  rw [Option.map_eq_none'] at h2
  rw [h2, Option.or_none]
  exact mapLookup_mapErase_ne m h

theorem eraseAll_nil {α β : Type} [DecidableEq α] (m : List (α × β)) :
    eraseAll m [] = m := rfl

theorem eraseAll_cons {α β : Type} [DecidableEq α] (m : List (α × β)) (k : α)
    (ks : List α) : eraseAll m (k :: ks) = eraseAll (mapErase m k) ks := rfl

theorem eraseAll_append {α β : Type} [DecidableEq α] (m : List (α × β)) (ks ks2 : List α) :
    eraseAll m (ks ++ ks2) = eraseAll (eraseAll m ks) ks2 :=
  List.foldl_append _ _ _ _

theorem mem_eraseAll {α β : Type} [DecidableEq α] {m : List (α × β)} {ks : List α}
    {k : α} {v : β} : (k, v) ∈ eraseAll m ks ↔ (k, v) ∈ m ∧ k ∉ ks := by
  induction ks generalizing m with
  | nil => simp [eraseAll_nil]
  | cons a ks ih =>
    rw [eraseAll_cons, ih, mem_mapErase]
    simp only [List.mem_cons]
    constructor
    · rintro ⟨⟨hm, hne⟩, hks⟩
      exact ⟨hm, by rintro (rfl | hk) <;> [exact hne rfl; exact hks hk]⟩
    · rintro ⟨hm, hnk⟩
      exact ⟨⟨hm, fun hh => hnk (Or.inl hh)⟩, fun hh => hnk (Or.inr hh)⟩

theorem eraseAll_sublist {α β : Type} [DecidableEq α] (m : List (α × β)) (ks : List α) :
    eraseAll m ks <+ m := by
  induction ks generalizing m with
  | nil => exact List.Sublist.refl m
  | cons a ks ih =>
    rw [eraseAll_cons]
    exact (ih (mapErase m a)).trans (mapErase_sublist m a)

theorem keysNodup_eraseAll {α β : Type} [DecidableEq α] {m : List (α × β)} (ks : List α)
    (h : (m.map Prod.fst).Nodup) : ((eraseAll m ks).map Prod.fst).Nodup :=
  List.Nodup.sublist (List.Sublist.map Prod.fst (eraseAll_sublist m ks)) h

theorem mapLookup_eraseAll_not_mem {α β : Type} [DecidableEq α] (m : List (α × β))
    {ks : List α} {k : α} (h : k ∉ ks) : mapLookup (eraseAll m ks) k = mapLookup m k := by
  induction ks generalizing m with
  | nil => rfl
  | cons a ks ih =>
    rw [eraseAll_cons, ih (mapErase m a) (fun hh => h (List.mem_cons_of_mem a hh))]
    exact mapLookup_mapErase_ne m (fun hh => h (hh ▸ List.mem_cons_self a ks))

theorem consistentP_sublist {m m2 : List (String × Participant)} (hs : m2 <+ m)
    (h : consistentP m) : consistentP m2 :=
  fun kv hkv => h kv (hs.subset hkv)

/-! The availability computation as key-set deletion. -/

theorem inner_fold_eq (s : List Participant) (m : List (String × Participant)) :
    s.foldl (fun a w => mapErase a w.id) m = eraseAll m (s.map Participant.id) := by
  induction s generalizing m with
  | nil => rfl
  | cons p ps ih => rw [List.foldl_cons, List.map_cons, eraseAll_cons, ih]

theorem winners_fold_eq (w : List (Int × List Participant))
    (m : List (String × Participant)) :
    w.foldl (fun acc kv => kv.2.foldl (fun a x => mapErase a x.id) acc) m
      = eraseAll m (flatIDs w) := by
  induction w generalizing m with
  | nil => rfl
  | cons kv rest ih =>
    rw [List.foldl_cons, ih, inner_fold_eq]
    rw [show flatIDs (kv :: rest) = kv.2.map Participant.id ++ flatIDs rest from
      List.flatMap_cons kv rest _]
    rw [eraseAll_append]

theorem availableParticipants_eq (l : Lottery) (prizeNo : Int) (ord : List String) :
    availableParticipants l prizeNo ord
      = participantMapToSlice (eraseAll l.participants (flatIDs l.winners)) ord := by
  unfold availableParticipants copyParticipantMap
  rw [winners_fold_eq]

/-! Listing a map's values. -/

theorem iterKeys_perm {α β : Type} [DecidableEq α] (m : List (α × β)) (ord : List α) :
    List.Perm (iterKeys m ord) (m.map Prod.fst) := by
  unfold iterKeys
  split
  · assumption
  · exact List.Perm.refl _

theorem mapLookup_cons_self {α β : Type} [DecidableEq α] (k : α) (v : β)
    (rest : List (α × β)) : mapLookup ((k, v) :: rest) k = some v := by
  simp [mapLookup, List.find?_cons]

theorem mapLookup_cons_ne {α β : Type} [DecidableEq α] {k k2 : α} (v : β)
    (rest : List (α × β)) (h : k2 ≠ k) :
    mapLookup ((k, v) :: rest) k2 = mapLookup rest k2 := by
  have : ((k, v).1 == k2) = false := by
    simp only [beq_eq_false_iff_ne]
    exact fun hh => h hh.symm
  simp [mapLookup, List.find?_cons, this]

theorem keys_filterMap_lookup {α β : Type} [DecidableEq α] (m : List (α × β))
    (h : (m.map Prod.fst).Nodup) :
    (m.map Prod.fst).filterMap (fun k => mapLookup m k) = m.map Prod.snd := by
  induction m with
  | nil => rfl
  | cons kv rest ih =>
    rcases kv with ⟨k, v⟩
    simp only [List.map_cons, List.nodup_cons] at h
    rw [List.map_cons, List.filterMap_cons]
    rw [mapLookup_cons_self]
    have hcongr : (rest.map Prod.fst).filterMap (fun x => mapLookup ((k, v) :: rest) x)
        = (rest.map Prod.fst).filterMap (fun x => mapLookup rest x) := by
      apply List.filterMap_congr
      intro x hx
      exact mapLookup_cons_ne v rest (fun hh => h.1 (hh ▸ hx))
    rw [hcongr, ih h.2, List.map_cons]

theorem slice_perm_values {m : List (String × Participant)} (ord : List String)
    (h : (m.map Prod.fst).Nodup) :
    List.Perm (participantMapToSlice m ord) (m.map Prod.snd) := by
  unfold participantMapToSlice
  calc (iterKeys m ord).filterMap (fun k => mapLookup m k)
      ~ (m.map Prod.fst).filterMap (fun k => mapLookup m k) :=
        List.Perm.filterMap _ (iterKeys_perm m ord)
    _ = m.map Prod.snd := keys_filterMap_lookup m h

theorem mem_slice_iff {m : List (String × Participant)} {ord : List String}
    {x : Participant} (h : (m.map Prod.fst).Nodup) :
    x ∈ participantMapToSlice m ord ↔ ∃ k, (k, x) ∈ m := by
  rw [(slice_perm_values ord h).mem_iff]
  simp only [List.mem_map]
  constructor
  · rintro ⟨kv, hkv, rfl⟩
    exact ⟨kv.1, hkv⟩
  · rintro ⟨k, hk⟩
    exact ⟨(k, x), hk, rfl⟩

theorem slice_ids_perm_keys {m : List (String × Participant)} (ord : List String)
    (h : (m.map Prod.fst).Nodup) (hc : consistentP m) :
    List.Perm ((participantMapToSlice m ord).map Participant.id) (m.map Prod.fst) := by
  have h1 := List.Perm.map Participant.id (slice_perm_values ord h)
  have h2 : (m.map Prod.snd).map Participant.id = m.map Prod.fst := by
    rw [List.map_map]
    exact List.map_congr_left (fun kv hkv => (hc kv hkv).symm)
  rw [h2] at h1
  exact h1

theorem slice_ids_nodup {m : List (String × Participant)} (ord : List String)
    (h : (m.map Prod.fst).Nodup) (hc : consistentP m) :
    ((participantMapToSlice m ord).map Participant.id).Nodup :=
  (slice_ids_perm_keys ord h hc).symm.nodup h

/-! `participantSliceToMap` on a duplicate-free slice. -/

theorem sliceToMap_aux (s : List Participant) (acc : List (String × Participant))
    (hd : ∀ p ∈ s, p.id ∉ acc.map Prod.fst) (hn : (s.map Participant.id).Nodup) :
    s.foldl (fun m p => mapInsert m p.id p) acc = acc ++ s.map (fun p => (p.id, p)) := by
  induction s generalizing acc with
  | nil => simp
  | cons p ps ih =>
    rw [List.foldl_cons]
    have hins : mapInsert acc p.id p = acc ++ [(p.id, p)] := by
      rw [mapInsert_eq_erase_append]
      congr 1
      unfold mapErase
      rw [List.filter_eq_self]
      intro kv hkv
      simp only [bne_iff_ne]
      intro hh
      exact hd p (List.mem_cons_self p ps) (hh ▸ List.mem_map_of_mem Prod.fst hkv)
    rw [hins]
    simp only [List.map_cons, List.nodup_cons] at hn
    rw [ih (acc ++ [(p.id, p)]) ?_ hn.2]
    · simp
    · intro q hq
      rw [List.map_append]
      intro hmem
      rcases List.mem_append.mp hmem with hl | hr
      · exact hd q (List.mem_cons_of_mem p hq) hl
      · simp only [List.map_cons, List.map_nil, List.mem_singleton] at hr
        exact hn.1 (hr ▸ List.mem_map_of_mem Participant.id hq)

theorem sliceToMap_eq_of_nodup {s : List Participant}
    (hn : (s.map Participant.id).Nodup) :
    participantSliceToMap s = s.map (fun p => (p.id, p)) := by
  unfold participantSliceToMap
  rw [sliceToMap_aux s [] (by simp) hn]
  rfl

/-! Sampling without replacement: swap-removal is a permutation-with-removal,
so the drawn list is a sub-permutation of the candidates. -/

theorem subperm_map {α β : Type} (f : α → β) {l1 l2 : List α} (h : l1 <+~ l2) :
    l1.map f <+~ l2.map f := by
  rcases h with ⟨mid, hp, hs⟩
  exact ⟨mid.map f, hp.map f, hs.map f⟩

theorem subperm_nodup {α : Type} {l1 l2 : List α} (h : l1 <+~ l2) (hn : l2.Nodup) :
    l1.Nodup := by
  rcases h with ⟨mid, hp, hs⟩
  exact hp.nodup (hn.sublist hs)

theorem getLast_cons_dropLast_perm {α : Type} (l : List α) (h : l ≠ []) :
    List.Perm (l.getLast h :: l.dropLast) l := by
  conv_rhs => rw [← List.dropLast_append_getLast h]
  exact (List.perm_append_singleton _ _).symm

theorem removeParticipant_cons_cons_zero (a x : Participant) (xs : List Participant) :
    removeParticipant (a :: x :: xs) 0
      = (x :: xs).getLast (by simp) :: (x :: xs).dropLast := by
  unfold removeParticipant
  rw [List.getLast?_cons_cons, List.getLast?_eq_getLast _ (by simp)]
  have hguard : ¬ 0 ≥ (a :: x :: xs).length := by simp
  simp only [hguard, if_false]
  rw [List.set_cons_zero]
  exact List.dropLast_cons_of_ne_nil (by simp)

theorem removeParticipant_singleton (a : Participant) : removeParticipant [a] 0 = [] := by
  unfold removeParticipant
  simp

theorem removeParticipant_cons_succ (a : Participant) (t : List Participant) (i : Nat)
    (ht : i < t.length) :
    removeParticipant (a :: t) (i + 1) = a :: removeParticipant t i := by
  rcases t with _ | ⟨x, xs⟩
  · simp at ht
  unfold removeParticipant
  rw [List.getLast?_cons_cons, List.getLast?_eq_getLast (x :: xs) (by simp)]
  have hg1 : ¬ i + 1 ≥ (a :: x :: xs).length ↔ ¬ i ≥ (x :: xs).length := by
    simp only [List.length_cons]
    omega
  have hgf : ¬ i + 1 ≥ (a :: x :: xs).length := by
    simp only [List.length_cons] at ht ⊢
    omega
  have hgf2 : ¬ i ≥ (x :: xs).length := by
    simp only [List.length_cons] at ht ⊢
    omega
  simp only [hgf, hgf2, if_false]
  rw [List.set_cons_succ]
  apply List.dropLast_cons_of_ne_nil
  intro hh
  have := congrArg List.length hh
  simp at this

theorem removeParticipant_perm (d : Participant) :
    ∀ (s : List Participant) (i : Nat), i < s.length →
      List.Perm (s.getD i d :: removeParticipant s i) s := by
  intro s
  induction s with
  | nil => intro i hi; simp at hi
  | cons a t ih =>
    intro i hi
    cases i with
    | zero =>
      rw [List.getD_cons_zero]
      rcases t with _ | ⟨x, xs⟩
      · rw [removeParticipant_singleton]
      · rw [removeParticipant_cons_cons_zero]
        exact (getLast_cons_dropLast_perm (x :: xs) (by simp)).cons a
    | succ i =>
      have hit : i < t.length := by
        simp only [List.length_cons] at hi
        omega
      rw [List.getD_cons_succ, removeParticipant_cons_succ a t i hit]
      exact (List.Perm.swap a (t.getD i d) (removeParticipant t i)).trans
        ((ih i hit).cons a)

theorem removeParticipant_length {s : List Participant} {i : Nat} (h : i < s.length) :
    (removeParticipant s i).length = s.length - 1 := by
  have := (removeParticipant_perm ⟨"", ""⟩ s i h).length_eq
  simp only [List.length_cons] at this
  omega

theorem drawLoop_subperm : ∀ (n : Nat) (ps : List Participant) (orc : List Nat),
    drawLoop n ps orc <+~ ps := by
  intro n
  induction n with
  | zero => intro ps orc; exact List.nil_subperm
  | succ n ih =>
    intro ps orc
    rcases ps with _ | ⟨p, t⟩
    · exact List.nil_subperm
    rw [drawLoop]
    have hlt : orc.headD 0 % (p :: t).length < (p :: t).length :=
      Nat.mod_lt _ (by simp)
    have hperm := removeParticipant_perm p (p :: t) _ hlt
    rcases ih (removeParticipant (p :: t) (orc.headD 0 % (p :: t).length)) orc.tail with
      ⟨mid, hmp, hms⟩
    exact List.Subperm.trans ⟨_ :: mid, hmp.cons _, hms.cons₂ _⟩ hperm.subperm

theorem drawLoop_length : ∀ (n : Nat) (ps : List Participant) (orc : List Nat),
    n ≤ ps.length → (drawLoop n ps orc).length = n := by
  intro n
  induction n with
  | zero => intro ps orc _; rfl
  | succ n ih =>
    intro ps orc hn
    rcases ps with _ | ⟨p, t⟩
    · simp at hn
    rw [drawLoop]
    have hlt : orc.headD 0 % (p :: t).length < (p :: t).length :=
      Nat.mod_lt _ (by simp)
    have hrl := removeParticipant_length hlt
    rw [List.length_cons]
    rw [ih _ orc.tail ?_]
    rw [hrl]
    simp only [List.length_cons] at hn ⊢
    omega

theorem goDraw_subperm (a : Int) (ps : List Participant) (orc : List Nat) :
    goDraw a ps orc <+~ ps := by
  unfold goDraw
  split
  · exact List.nil_subperm
  · exact drawLoop_subperm _ _ _

theorem goDraw_mem {a : Int} {ps : List Participant} {orc : List Nat} :
    ∀ w ∈ goDraw a ps orc, w ∈ ps := by
  intro w hw
  rcases goDraw_subperm a ps orc with ⟨mid, hp, hs⟩
  exact hs.subset (hp.mem_iff.mpr hw)

theorem goDraw_ids_nodup {a : Int} {ps : List Participant} {orc : List Nat}
    (h : (ps.map Participant.id).Nodup) :
    ((goDraw a ps orc).map Participant.id).Nodup :=
  subperm_nodup (subperm_map Participant.id (goDraw_subperm a ps orc)) h

theorem goDraw_length {a : Int} {ps : List Participant} {orc : List Nat}
    (ha : 1 ≤ a) (hps : ps.length ≠ 0) :
    (goDraw a ps orc).length = min a.toNat ps.length := by
  unfold goDraw
  rw [if_neg ?_]
  · exact drawLoop_length _ _ _ (min_le_right _ _)
  · push_neg
    exact ⟨by omega, hps⟩

theorem goDraw_length_le (a : Int) (ps : List Participant) (orc : List Nat) :
    (goDraw a ps orc).length ≤ a.toNat := by
  unfold goDraw
  split
  · simp
  · rw [drawLoop_length _ _ _ (min_le_right _ _)]
    exact min_le_left _ _

theorem sublist_flatMap {α β : Type} (f : α → List β) {l1 l2 : List α} (h : l1 <+ l2) :
    l1.flatMap f <+ l2.flatMap f := by
  induction h with
  | slnil => exact List.Sublist.refl _
  | cons a _ ih =>
    rw [List.flatMap_cons]
    exact ih.trans (List.sublist_append_right _ _)
  | cons₂ a _ ih =>
    rw [List.flatMap_cons, List.flatMap_cons]
    exact ih.append_left _

theorem flatIDs_mapErase_sublist (w : List (Int × List Participant)) (p : Int) :
    flatIDs (mapErase w p) <+ flatIDs w :=
  sublist_flatMap _ (mapErase_sublist w p)

theorem flatIDs_mapInsert (w : List (Int × List Participant)) (p : Int)
    (ws : List Participant) :
    flatIDs (mapInsert w p ws) = flatIDs (mapErase w p) ++ ws.map Participant.id := by
  rw [mapInsert_eq_erase_append]
  unfold flatIDs
  rw [List.flatMap_append]
  simp

theorem mapErase_eq_self_of_lookup_none {α β : Type} [DecidableEq α]
    {m : List (α × β)} {k : α} (h : mapLookup m k = none) : mapErase m k = m := by
  unfold mapErase
  rw [List.filter_eq_self]
  intro kv hkv
  simp only [bne_iff_ne]
  intro hh
  rcases kv with ⟨k1, v⟩
  exact mapLookup_eq_none_iff.mp h v (hh ▸ hkv)

theorem perm_cons_eraseKey {α β : Type} [DecidableEq α] {w : List (α × β)} {p : α}
    {ws : β} (hn : (w.map Prod.fst).Nodup) (hmem : (p, ws) ∈ w) :
    List.Perm w ((p, ws) :: mapErase w p) := by
  induction w with
  | nil => simp at hmem
  | cons kv rest ih =>
    rcases kv with ⟨k1, v1⟩
    simp only [List.map_cons, List.nodup_cons] at hn
    rcases List.mem_cons.mp hmem with heq | hrest
    · cases heq
      have h1 : mapErase ((p, ws) :: rest) p = rest := by
        unfold mapErase
        rw [List.filter_cons]
        have hpp : (((p, ws) : α × β).1 != p) = false := by simp
        rw [hpp]
        simp only [Bool.false_eq_true, if_false]
        rw [List.filter_eq_self]
        intro kv hkv
        simp only [bne_iff_ne]
        intro hh
        exact hn.1 (hh ▸ List.mem_map_of_mem Prod.fst hkv)
      rw [h1]
    · have hk1 : (k1 != p) = true := by
        simp only [bne_iff_ne]
        intro hh
        exact hn.1 (hh ▸ List.mem_map_of_mem Prod.fst hrest)
      have h1 : mapErase ((k1, v1) :: rest) p = (k1, v1) :: mapErase rest p := by
        unfold mapErase
        rw [List.filter_cons, hk1]
        simp
      rw [h1]
      exact ((ih hn.2 hrest).cons (k1, v1)).trans
        (List.Perm.swap (p, ws) (k1, v1) (mapErase rest p))

theorem flatIDs_decomp {w : List (Int × List Participant)} {p : Int}
    {ws : List Participant} (hn : (w.map Prod.fst).Nodup) (hmem : (p, ws) ∈ w) :
    List.Perm (flatIDs w) (ws.map Participant.id ++ flatIDs (mapErase w p)) := by
  have h := List.Perm.flatMap_right (fun kv => kv.2.map Participant.id)
    (perm_cons_eraseKey hn hmem)
  simpa [flatIDs] using h

/-! Availability facts. -/

theorem avail_ids_nodup {l : Lottery} {prizeNo : Int} {ord : List String}
    (h1 : (l.participants.map Prod.fst).Nodup) (hc : consistentP l.participants) :
    ((availableParticipants l prizeNo ord).map Participant.id).Nodup := by
  rw [availableParticipants_eq]
  exact slice_ids_nodup ord (keysNodup_eraseAll _ h1)
    (consistentP_sublist (eraseAll_sublist _ _) hc)

theorem avail_not_winner {l : Lottery} {prizeNo : Int} {ord : List String}
    (h1 : (l.participants.map Prod.fst).Nodup) (hc : consistentP l.participants) :
    ∀ x ∈ availableParticipants l prizeNo ord, x.id ∉ flatIDs l.winners := by
  rw [availableParticipants_eq]
  intro x hx
  rcases (mem_slice_iff (keysNodup_eraseAll _ h1)).mp hx with ⟨k, hk⟩
  rcases mem_eraseAll.mp hk with ⟨hm, hnk⟩
  have hkid : k = x.id := hc (k, x) hm
  exact hkid ▸ hnk

theorem avail_mem_participants {l : Lottery} {prizeNo : Int} {ord : List String}
    (h1 : (l.participants.map Prod.fst).Nodup) :
    ∀ x ∈ availableParticipants l prizeNo ord, ∃ k, (k, x) ∈ l.participants := by
  rw [availableParticipants_eq]
  intro x hx
  rcases (mem_slice_iff (keysNodup_eraseAll _ h1)).mp hx with ⟨k, hk⟩
  exact ⟨k, (mem_eraseAll.mp hk).1⟩

/-! Preservation of well-formedness by every public operation. -/

theorem wf_goNew (name : String) : Wf (goNew name) := by
  constructor <;> simp [goNew, consistentP, flatIDs]

theorem wf_goSetPrize {l : Lottery} (no : Int) (name : String) (amount : Int)
    (desc : String) (h : Wf l) : Wf (goSetPrize l no name amount desc) := h

theorem loadPrizesLoop_proj : ∀ (rows : List (List String)) (l : Lottery),
    ((loadPrizesLoop l rows).2).participants = l.participants ∧
    ((loadPrizesLoop l rows).2).winners = l.winners := by
  intro rows
  induction rows with
  | nil => intro l; exact ⟨rfl, rfl⟩
  | cons row rest ih =>
    intro l
    rw [loadPrizesLoop]
    cases parsePrizeRow row with
    | error e => exact ⟨rfl, rfl⟩
    | ok prize => exact ih _

theorem wf_goLoadPrizesCSV {l : Lottery} (rows : List (List String)) (h : Wf l) :
    Wf ((goLoadPrizesCSV l rows).2) := by
  unfold goLoadPrizesCSV
  rcases loadPrizesLoop_proj rows.tail { l with prizes := [] } with ⟨hp, hw⟩
  unfold Wf
  rw [hp, hw]
  exact h

theorem consistentP_mapInsert {m : List (String × Participant)} {k : String}
    {v : Participant} (hc : consistentP m) (hkv : k = v.id) :
    consistentP (mapInsert m k v) := by
  intro kv hkv2
  rw [mapInsert_eq_erase_append] at hkv2
  rcases List.mem_append.mp hkv2 with hl | hr
  · exact hc kv ((mapErase_sublist m k).subset hl)
  · simp only [List.mem_singleton] at hr
    rw [hr]
    exact hkv

theorem loadParticipantsLoop_winners : ∀ (rows : List (List String)) (l : Lottery),
    ((loadParticipantsLoop l rows).2).winners = l.winners := by
  intro rows
  induction rows with
  | nil => intro l; rfl
  | cons row rest ih =>
    intro l
    rw [loadParticipantsLoop]
    split
    · rfl
    · exact ih _

theorem loadParticipantsLoop_wfP : ∀ (rows : List (List String)) (l : Lottery),
    (l.participants.map Prod.fst).Nodup → consistentP l.participants →
    (((loadParticipantsLoop l rows).2).participants.map Prod.fst).Nodup ∧
      consistentP ((loadParticipantsLoop l rows).2).participants := by
  intro rows
  induction rows with
  | nil => intro l h1 h2; exact ⟨h1, h2⟩
  | cons row rest ih =>
    intro l h1 h2
    rw [loadParticipantsLoop]
    split
    · exact ⟨h1, h2⟩
    · exact ih _ (keysNodup_mapInsert _ _ h1) (consistentP_mapInsert h2 rfl)

theorem wf_goLoadParticipantsCSV {l : Lottery} (rows : List (List String)) (h : Wf l) :
    Wf ((goLoadParticipantsCSV l rows).2) := by
  unfold goLoadParticipantsCSV
  rcases loadParticipantsLoop_wfP rows.tail { l with participants := [] }
    (by simp) (by intro kv hkv; simp at hkv) with ⟨h1, h2⟩
  refine ⟨h1, h2, ?_, ?_⟩
  · rw [loadParticipantsLoop_winners]
    exact h.2.2.1
  · rw [loadParticipantsLoop_winners]
    exact h.2.2.2

/-! Branch equations for `Draw`, `Revoke`, `Redraw`, `Load`. -/

theorem goDrawOp_none {l : Lottery} {prizeNo : Int} (orc : List Nat) (ord : List String)
    (h : mapLookup l.prizes prizeNo = none) :
    goDrawOp l prizeNo orc ord = (.error .prizeNo, l) := by
  unfold goDrawOp
  rw [h]

theorem goDrawOp_badAmount {l : Lottery} {prizeNo : Int} {prize : Prize}
    (orc : List Nat) (ord : List String) (h : mapLookup l.prizes prizeNo = some prize)
    (ha : prize.amount < 1) :
    goDrawOp l prizeNo orc ord = (.error .prizeAmount, l) := by
  unfold goDrawOp
  rw [h]
  simp [ha]

theorem goDrawOp_alreadyDrawn {l : Lottery} {prizeNo : Int} {prize : Prize}
    (orc : List Nat) (ord : List String) (h : mapLookup l.prizes prizeNo = some prize)
    (ha : ¬ prize.amount < 1) (hw : (mapLookup l.winners prizeNo).isSome) :
    goDrawOp l prizeNo orc ord = (.error .winnersExistBeforeDraw, l) := by
  unfold goDrawOp
  rw [h]
  simp [ha, hw]

theorem goDrawOp_noAvail {l : Lottery} {prizeNo : Int} {prize : Prize}
    (orc : List Nat) {ord : List String} (h : mapLookup l.prizes prizeNo = some prize)
    (ha : ¬ prize.amount < 1) (hw : mapLookup l.winners prizeNo = none)
    (hav : (availableParticipants l prizeNo ord).length = 0) :
    goDrawOp l prizeNo orc ord = (.error .noAvailableParticipants, l) := by
  unfold goDrawOp
  rw [h]
  simp [ha, hw, hav]

theorem goDrawOp_success {l : Lottery} {prizeNo : Int} {prize : Prize}
    (orc : List Nat) {ord : List String} (h : mapLookup l.prizes prizeNo = some prize)
    (ha : ¬ prize.amount < 1) (hw : mapLookup l.winners prizeNo = none)
    (hav : (availableParticipants l prizeNo ord).length ≠ 0) :
    goDrawOp l prizeNo orc ord =
      (.ok (goDraw prize.amount (availableParticipants l prizeNo ord) orc),
       { l with winners := mapInsert l.winners prizeNo (goDraw prize.amount (availableParticipants l prizeNo ord) orc) }) := by
  unfold goDrawOp
  rw [h]
  simp [ha, hw, hav]

theorem goRevoke_none {l : Lottery} {prizeNo : Int} (revoked : List Participant)
    (ord : List String) (h : mapLookup l.prizes prizeNo = none) :
    goRevoke l prizeNo revoked ord = (.error .prizeNo, l) := by
  unfold goRevoke
  rw [h]

theorem goRevoke_badAmount {l : Lottery} {prizeNo : Int} {prize : Prize}
    (revoked : List Participant) (ord : List String)
    (h : mapLookup l.prizes prizeNo = some prize) (ha : prize.amount < 1) :
    goRevoke l prizeNo revoked ord = (.error .prizeAmount, l) := by
  unfold goRevoke
  rw [h]
  simp [ha]

theorem goRevoke_notDrawn {l : Lottery} {prizeNo : Int} {prize : Prize}
    (revoked : List Participant) (ord : List String)
    (h : mapLookup l.prizes prizeNo = some prize) (ha : ¬ prize.amount < 1)
    (hw : mapLookup l.winners prizeNo = none) :
    goRevoke l prizeNo revoked ord = (.error .noOriginalWinnersBeforeRedraw, l) := by
  unfold goRevoke
  rw [h]
  simp [ha, hw]

theorem goRevoke_loopError {l : Lottery} {prizeNo : Int} {prize : Prize}
    {ws revoked : List Participant} {e : Err} (ord : List String)
    (h : mapLookup l.prizes prizeNo = some prize) (ha : ¬ prize.amount < 1)
    (hw : mapLookup l.winners prizeNo = some ws)
    (hloop : revokeLoop (participantSliceToMap ws) revoked = .error e) :
    goRevoke l prizeNo revoked ord = (.error e, l) := by
  unfold goRevoke
  rw [h]
  simp [ha, hw, hloop]

theorem goRevoke_loopOk {l : Lottery} {prizeNo : Int} {prize : Prize}
    {ws revoked : List Participant} {m : List (String × Participant)} (ord : List String)
    (h : mapLookup l.prizes prizeNo = some prize) (ha : ¬ prize.amount < 1)
    (hw : mapLookup l.winners prizeNo = some ws)
    (hloop : revokeLoop (participantSliceToMap ws) revoked = .ok m) :
    goRevoke l prizeNo revoked ord =
      (.ok (), { l with winners := mapInsert l.winners prizeNo (participantMapToSlice m ord) }) := by
  unfold goRevoke
  rw [h]
  simp [ha, hw, hloop]

theorem goRedraw_capacity {l : Lottery} {prizeNo : Int} {prize : Prize}
    {ws : List Participant} (amount : Int) (orc : List Nat) (ord : List String)
    (h : mapLookup l.prizes prizeNo = some prize) (ha : ¬ prize.amount < 1)
    (hw : mapLookup l.winners prizeNo = some ws)
    (hcap : amount > prize.amount - (ws.length : Int)) :
    goRedraw l prizeNo amount orc ord = (.error .redrawPrizeAmount, l) := by
  unfold goRedraw
  rw [h]
  simp [ha, hw, hcap]

theorem goRedraw_success {l : Lottery} {prizeNo : Int} {prize : Prize}
    {ws : List Participant} (amount : Int) (orc : List Nat) {ord : List String}
    (h : mapLookup l.prizes prizeNo = some prize) (ha : ¬ prize.amount < 1)
    (hw : mapLookup l.winners prizeNo = some ws)
    (hcap : ¬ amount > prize.amount - (ws.length : Int))
    (hav : (availableParticipants l prizeNo ord).length ≠ 0) :
    goRedraw l prizeNo amount orc ord =
      (.ok (goDraw amount (availableParticipants l prizeNo ord) orc),
       { l with winners := mapInsert l.winners prizeNo (ws ++ goDraw amount (availableParticipants l prizeNo ord) orc) }) := by
  unfold goRedraw
  rw [h]
  simp [ha, hw, hcap, hav]

theorem goRedraw_state_cases (l : Lottery) (prizeNo : Int) (amount : Int)
    (orc : List Nat) (ord : List String) :
    (∃ e, goRedraw l prizeNo amount orc ord = (.error e, l)) ∨
    ∃ prize ws, mapLookup l.prizes prizeNo = some prize ∧
      ¬ prize.amount < 1 ∧ mapLookup l.winners prizeNo = some ws ∧
      ¬ amount > prize.amount - (ws.length : Int) ∧
      (availableParticipants l prizeNo ord).length ≠ 0 ∧
      goRedraw l prizeNo amount orc ord =
        (.ok (goDraw amount (availableParticipants l prizeNo ord) orc),
         { l with winners := mapInsert l.winners prizeNo (ws ++ goDraw amount (availableParticipants l prizeNo ord) orc) }) := by
  cases h : mapLookup l.prizes prizeNo with
  | none => left; exact ⟨.prizeNo, by rw [goRedraw]; rw [h]⟩
  | some prize =>
    by_cases ha : prize.amount < 1
    · left; exact ⟨.prizeAmount, by rw [goRedraw]; rw [h]; simp [ha]⟩
    cases hw : mapLookup l.winners prizeNo with
    | none => left; exact ⟨.winnersNotExistBeforeReDraw, by rw [goRedraw]; rw [h]; simp [ha, hw]⟩
    | some ws =>
      by_cases hcap : amount > prize.amount - (ws.length : Int)
      · left; exact ⟨_, goRedraw_capacity amount orc ord h ha hw hcap⟩
      by_cases hav : (availableParticipants l prizeNo ord).length = 0
      · left; exact ⟨.noAvailableParticipants, by rw [goRedraw]; rw [h]; simp [ha, hw, hcap, hav]⟩
      · right
        exact ⟨prize, ws, rfl, ha, rfl, hcap, hav, goRedraw_success amount orc h ha hw hcap hav⟩

theorem goDrawOp_state_cases (l : Lottery) (prizeNo : Int) (orc : List Nat)
    (ord : List String) :
    (∃ e, goDrawOp l prizeNo orc ord = (.error e, l)) ∨
    ∃ prize, mapLookup l.prizes prizeNo = some prize ∧ ¬ prize.amount < 1 ∧
      mapLookup l.winners prizeNo = none ∧
      (availableParticipants l prizeNo ord).length ≠ 0 ∧
      goDrawOp l prizeNo orc ord =
        (.ok (goDraw prize.amount (availableParticipants l prizeNo ord) orc),
         { l with winners := mapInsert l.winners prizeNo (goDraw prize.amount (availableParticipants l prizeNo ord) orc) }) := by
  cases h : mapLookup l.prizes prizeNo with
  | none => left; exact ⟨_, goDrawOp_none orc ord h⟩
  | some prize =>
    by_cases ha : prize.amount < 1
    · left; exact ⟨_, goDrawOp_badAmount orc ord h ha⟩
    cases hw : mapLookup l.winners prizeNo with
    | some w0 => left; exact ⟨_, goDrawOp_alreadyDrawn orc ord h ha (by simp [hw])⟩
    | none =>
      by_cases hav : (availableParticipants l prizeNo ord).length = 0
      · left; exact ⟨_, goDrawOp_noAvail orc h ha hw hav⟩
      · right
        exact ⟨prize, rfl, ha, rfl, hav, goDrawOp_success orc h ha hw hav⟩

theorem goRevoke_state_cases (l : Lottery) (prizeNo : Int) (revoked : List Participant)
    (ord : List String) :
    (∃ e, goRevoke l prizeNo revoked ord = (.error e, l)) ∨
    ∃ prize ws m, mapLookup l.prizes prizeNo = some prize ∧ ¬ prize.amount < 1 ∧
      mapLookup l.winners prizeNo = some ws ∧
      revokeLoop (participantSliceToMap ws) revoked = .ok m ∧
      goRevoke l prizeNo revoked ord =
        (.ok (), { l with winners := mapInsert l.winners prizeNo (participantMapToSlice m ord) }) := by
  cases h : mapLookup l.prizes prizeNo with
  | none => left; exact ⟨_, goRevoke_none revoked ord h⟩
  | some prize =>
    by_cases ha : prize.amount < 1
    · left; exact ⟨_, goRevoke_badAmount revoked ord h ha⟩
    cases hw : mapLookup l.winners prizeNo with
    | none => left; exact ⟨_, goRevoke_notDrawn revoked ord h ha hw⟩
    | some ws =>
      cases hloop : revokeLoop (participantSliceToMap ws) revoked with
      | error e => left; exact ⟨_, goRevoke_loopError ord h ha hw hloop⟩
      | ok m =>
        right
        exact ⟨prize, ws, m, rfl, ha, rfl, hloop, goRevoke_loopOk ord h ha hw hloop⟩

/-! The revocation loop: exact characterization. -/

theorem revokeLoop_ok_sublist : ∀ (rs : List Participant)
    (m m2 : List (String × Participant)), revokeLoop m rs = .ok m2 → m2 <+ m := by
  intro rs
  induction rs with
  | nil =>
    intro m m2 h
    rw [revokeLoop] at h
    cases h
    exact List.Sublist.refl _
  | cons r rest ih =>
    intro m m2 h
    rw [revokeLoop] at h
    split at h
    · exact (ih _ _ h).trans (mapErase_sublist m r.id)
    · cases h

theorem revokeLoop_error_of_missing : ∀ (rs : List Participant)
    (m : List (String × Participant)),
    (¬ ∀ r ∈ rs, (mapLookup m r.id).isSome) →
    revokeLoop m rs = .error .revokedWinnerNotMatch := by
  intro rs
  induction rs with
  | nil => intro m h; exact absurd (by simp) h
  | cons r rest ih =>
    intro m h
    rw [revokeLoop]
    by_cases hr : (mapLookup m r.id).isSome
    · rw [if_pos hr]
      apply ih
      intro hall
      apply h
      intro q hq
      rcases List.mem_cons.mp hq with rfl | hq2
      · exact hr
      · have hq3 := hall q hq2
        by_cases hqr : q.id = r.id
        · rw [hqr] at hq3
          rw [mapLookup_mapErase_self] at hq3
          simp at hq3
        · rw [mapLookup_mapErase_ne m hqr] at hq3
          exact hq3
    · rw [if_neg hr]

theorem revokeLoop_ok_of_all : ∀ (rs : List Participant)
    (m : List (String × Participant)), (∀ r ∈ rs, (mapLookup m r.id).isSome) →
    ((rs.map Participant.id).Nodup) →
    revokeLoop m rs = .ok (eraseAll m (rs.map Participant.id)) := by
  intro rs
  induction rs with
  | nil => intro m _ _; rfl
  | cons r rest ih =>
    intro m hall hn
    rw [revokeLoop]
    rw [if_pos (hall r (List.mem_cons_self r rest))]
    simp only [List.map_cons, List.nodup_cons] at hn
    rw [List.map_cons, eraseAll_cons]
    apply ih
    · intro q hq
      have hq2 := hall q (List.mem_cons_of_mem r hq)
      have hqr : q.id ≠ r.id := fun hh => hn.1 (hh ▸ List.mem_map_of_mem Participant.id hq)
      rw [mapLookup_mapErase_ne m hqr]
      exact hq2
    · exact hn.2

/-! Well-formedness preservation for the winner-mutating operations. -/

theorem wf_goDrawOp (l : Lottery) (prizeNo : Int) (orc : List Nat) (ord : List String)
    (h : Wf l) : Wf (goDrawOp l prizeNo orc ord).2 := by
  rcases goDrawOp_state_cases l prizeNo orc ord with ⟨e, hs⟩ | ⟨prize, _, _, hw, _, heq⟩
  · rw [hs]; exact h
  · rw [heq]
    rcases h with ⟨hp1, hp2, hw1, hw2⟩
    refine ⟨hp1, hp2, keysNodup_mapInsert _ _ hw1, ?_⟩
    show (flatIDs (mapInsert l.winners prizeNo _)).Nodup
    rw [flatIDs_mapInsert, mapErase_eq_self_of_lookup_none hw]
    refine List.Nodup.append hw2 (goDraw_ids_nodup (avail_ids_nodup hp1 hp2)) ?_
    intro a ha1 ha2
    rcases List.mem_map.mp ha2 with ⟨x, hx, rfl⟩
    exact avail_not_winner hp1 hp2 x (goDraw_mem x hx) ha1

theorem winners_entry_ids_nodup {l : Lottery} {prizeNo : Int} {ws : List Participant}
    (h : Wf l) (hw : mapLookup l.winners prizeNo = some ws) :
    ((ws.map Participant.id) ++ flatIDs (mapErase l.winners prizeNo)).Nodup :=
  (flatIDs_decomp h.2.2.1 (mapLookup_mem hw)).nodup h.2.2.2

theorem wf_goRevoke (l : Lottery) (prizeNo : Int) (revoked : List Participant)
    (ord : List String) (h : Wf l) : Wf (goRevoke l prizeNo revoked ord).2 := by
  rcases goRevoke_state_cases l prizeNo revoked ord with ⟨e, hs⟩ | ⟨prize, ws, m, _, _, hw, hloop, heq⟩
  · rw [hs]; exact h
  · rw [heq]
    rcases h with ⟨hp1, hp2, hw1, hw2⟩
    refine ⟨hp1, hp2, keysNodup_mapInsert _ _ hw1, ?_⟩
    show (flatIDs (mapInsert l.winners prizeNo _)).Nodup
    rw [flatIDs_mapInsert]
    have hdecomp := (flatIDs_decomp hw1 (mapLookup_mem hw)).nodup hw2
    have hwsids : (ws.map Participant.id).Nodup := hdecomp.of_append_left
    have herase : (flatIDs (mapErase l.winners prizeNo)).Nodup := hdecomp.of_append_right
    have hdisj := List.disjoint_of_nodup_append hdecomp
    have hstm : participantSliceToMap ws = ws.map (fun p => (p.id, p)) :=
      sliceToMap_eq_of_nodup hwsids
    have hmsub : m <+ ws.map (fun p => (p.id, p)) := hstm ▸ revokeLoop_ok_sublist _ _ _ hloop
    have hmkeys : (m.map Prod.fst).Nodup := by
      refine List.Nodup.sublist (hmsub.map Prod.fst) ?_
      rw [List.map_map]
      exact hwsids
    have hmcons : consistentP m := by
      refine consistentP_sublist hmsub ?_
      intro kv hkv
      rcases List.mem_map.mp hkv with ⟨p, _, rfl⟩
      rfl
    have hsliceids := slice_ids_perm_keys ord hmkeys hmcons
    refine List.Nodup.append herase (hsliceids.symm.nodup hmkeys) ?_
    intro a ha1 ha2
    have ha3 : a ∈ m.map Prod.fst := hsliceids.mem_iff.mp ha2
    have ha4 : a ∈ ws.map Participant.id := by
      have := (hmsub.map Prod.fst).subset ha3
      rw [List.map_map] at this
      exact this
    exact hdisj ha4 ha1

theorem wf_goRedraw (l : Lottery) (prizeNo : Int) (amount : Int) (orc : List Nat)
    (ord : List String) (h : Wf l) : Wf (goRedraw l prizeNo amount orc ord).2 := by
  rcases goRedraw_state_cases l prizeNo amount orc ord with
    ⟨e, hs⟩ | ⟨prize, ws, _, _, hw, _, _, heq⟩
  · rw [hs]; exact h
  · rw [heq]
    rcases h with ⟨hp1, hp2, hw1, hw2⟩
    refine ⟨hp1, hp2, keysNodup_mapInsert _ _ hw1, ?_⟩
    show (flatIDs (mapInsert l.winners prizeNo _)).Nodup
    rw [flatIDs_mapInsert, List.map_append]
    have hdecomp := (flatIDs_decomp hw1 (mapLookup_mem hw)).nodup hw2
    have hperm : List.Perm
        (flatIDs (mapErase l.winners prizeNo) ++ ws.map Participant.id
          ++ (goDraw amount (availableParticipants l prizeNo ord) orc).map Participant.id)
        ((ws.map Participant.id ++ flatIDs (mapErase l.winners prizeNo))
          ++ (goDraw amount (availableParticipants l prizeNo ord) orc).map Participant.id) :=
      List.Perm.append_right _ (List.perm_append_comm)
    rw [← List.append_assoc]
    refine (hperm.symm).nodup ?_
    refine List.Nodup.append hdecomp (goDraw_ids_nodup (avail_ids_nodup hp1 hp2)) ?_
    intro a ha1 ha2
    rcases List.mem_map.mp ha2 with ⟨x, hx, rfl⟩
    have hxa := avail_not_winner hp1 hp2 x (goDraw_mem x hx)
    apply hxa
    exact ((flatIDs_decomp hw1 (mapLookup_mem hw)).symm.mem_iff).mp ha1

theorem wf_goClearWinners (l : Lottery) (prizeNo : Int) (h : Wf l) :
    Wf (goClearWinners l prizeNo) := by
  rcases h with ⟨hp1, hp2, hw1, hw2⟩
  refine ⟨hp1, hp2, keysNodup_mapInsert _ _ hw1, ?_⟩
  show (flatIDs (mapInsert l.winners prizeNo [])).Nodup
  rw [flatIDs_mapInsert]
  simp only [List.map_nil, List.append_nil]
  exact List.Nodup.sublist (flatIDs_mapErase_sublist l.winners prizeNo) hw2

theorem wf_goClearAllWinners (l : Lottery) (h : Wf l) : Wf (goClearAllWinners l) := by
  rcases h with ⟨hp1, hp2, _, _⟩
  exact ⟨hp1, hp2, by simp [goClearAllWinners], by simp [goClearAllWinners, flatIDs]⟩

theorem wf_goLoad (h : String → String) (l : Lottery) (data : SaveData) (hw : Wf l)
    (hd : recordWf data) : Wf (goLoad h l data).2 := by
  unfold goLoad
  split
  · exact hw
  · exact hd

theorem wf_of_reachR : ∀ {l : Lottery}, ReachR l → Wf l := by
  intro l h
  induction h with
  | fresh name => exact wf_goNew name
  | setPrize no name amount desc _ ih => exact wf_goSetPrize no name amount desc ih
  | loadPrizes rows _ ih => exact wf_goLoadPrizesCSV rows ih
  | loadParticipants rows _ ih => exact wf_goLoadParticipantsCSV rows ih
  | drawOp prizeNo orc ord _ ih => exact wf_goDrawOp _ prizeNo orc ord ih
  | revoke prizeNo revoked ord _ ih => exact wf_goRevoke _ prizeNo revoked ord ih
  | redraw prizeNo amount orc ord _ ih => exact wf_goRedraw _ prizeNo amount orc ord ih
  | clearWinners prizeNo _ ih => exact wf_goClearWinners _ prizeNo ih
  | clearAllWinners _ ih => exact wf_goClearAllWinners _ ih
  | load h data hd _ ih => exact wf_goLoad h _ data ih hd

/-! Exact description of a successful revocation. -/

theorem mapLookup_isSome_iff_keys {α β : Type} [DecidableEq α] {m : List (α × β)}
    {k : α} : (mapLookup m k).isSome ↔ k ∈ m.map Prod.fst := by
  rw [mapLookup_isSome_iff]
  constructor
  · rintro ⟨v, hv⟩
    exact List.mem_map_of_mem Prod.fst hv
  · intro hk
    rcases List.mem_map.mp hk with ⟨⟨k1, v⟩, hkv, rfl⟩
    exact ⟨v, hkv⟩

theorem eraseAll_eq_filter {α β : Type} [DecidableEq α] (m : List (α × β))
    (ks : List α) : eraseAll m ks = m.filter (fun kv => decide (kv.1 ∉ ks)) := by
  induction ks generalizing m with
  | nil => simp [eraseAll_nil]
  | cons a ks ih =>
    rw [eraseAll_cons, ih]
    unfold mapErase
    rw [List.filter_filter]
    apply List.filter_congr
    intro kv _
    by_cases h1 : kv.1 = a <;> by_cases h2 : kv.1 ∈ ks <;> simp [h1, h2]

/-- On success, the new winner entry written by `Revoke` is some permutation
(the map's iteration order) of the previous winners whose ids were not
revoked. -/
theorem revoke_success_entry {l : Lottery} {prizeNo : Int} {revoked : List Participant}
    {prize : Prize} {ws : List Participant} (ord : List String)
    (hp : mapLookup l.prizes prizeNo = some prize) (ha : ¬ prize.amount < 1)
    (hw : mapLookup l.winners prizeNo = some ws)
    (hwids : (ws.map Participant.id).Nodup)
    (hrids : (revoked.map Participant.id).Nodup)
    (hall : ∀ r ∈ revoked, r.id ∈ ws.map Participant.id) :
    ∃ ws2, goRevoke l prizeNo revoked ord =
        (.ok (), { l with winners := mapInsert l.winners prizeNo ws2 }) ∧
      List.Perm ws2
        (ws.filter (fun w => decide (w.id ∉ revoked.map Participant.id))) := by
  have hstm : participantSliceToMap ws = ws.map (fun p => (p.id, p)) :=
    sliceToMap_eq_of_nodup hwids
  have hall2 : ∀ r ∈ revoked, (mapLookup (participantSliceToMap ws) r.id).isSome := by
    intro r hr
    rw [mapLookup_isSome_iff_keys, hstm, List.map_map]
    have : (Prod.fst ∘ fun p => (p.id, p)) = Participant.id := rfl
    rw [this]
    exact hall r hr
  have hloop := revokeLoop_ok_of_all revoked (participantSliceToMap ws) hall2 hrids
  have hm2 : eraseAll (participantSliceToMap ws) (revoked.map Participant.id)
      = (ws.filter (fun w => decide (w.id ∉ revoked.map Participant.id))).map
          (fun p => (p.id, p)) := by
    rw [eraseAll_eq_filter, hstm, List.filter_map]
    rfl
  refine ⟨participantMapToSlice
    (eraseAll (participantSliceToMap ws) (revoked.map Participant.id)) ord,
    goRevoke_loopOk ord hp ha hw hloop, ?_⟩
  rw [hm2]
  have hkeys : (((ws.filter (fun w => decide (w.id ∉ revoked.map Participant.id))).map
      (fun p => (p.id, p))).map Prod.fst).Nodup := by
    rw [List.map_map]
    have : (Prod.fst ∘ fun p => (p.id, p)) = Participant.id := rfl
    rw [this]
    refine List.Nodup.sublist ((List.filter_sublist ws).map Participant.id) hwids
  have := slice_perm_values ord hkeys
  rw [List.map_map] at this
  have h2 : (Prod.snd ∘ fun p : Participant => (p.id, p)) = id := rfl
  rw [h2, List.map_id] at this
  exact this

/-- C1 (counterexample): the winner-disjointness invariant as claimed — over
states reachable by any sequence of public operations including `Load` of an
arbitrary checksum-valid record — is false: loading `dupRecord` yields a
reachable state in which participant id `a` wins both prize 1 and prize 2. -/
theorem C1_counterexample : Reach dupState ∧ ¬ (flatIDs dupState.winners).Nodup :=
  ⟨Reach.load (fun s => s) dupRecord (Reach.fresh "s"), by decide⟩

/-- C1 (amended): in every session state reachable from a fresh session by
public operations in which every record handed to `Load` is itself
well-formed (disjoint, duplicate-free winners and an id-keyed participant
map — as every record written by `Save` from a well-formed session is),
each participant id appears in at most one prize's winner sequence and at
most once within it: the concatenation of all winner-id sequences has no
duplicate. -/
theorem C1_winner_disjointness : ∀ (l : Lottery), ReachR l →
    (flatIDs l.winners).Nodup :=
  fun _ h => (wf_of_reachR h).2.2.2

/-- C1 witness: the amended theorem applied to a concrete reachable state
(a fresh session after one `ClearWinners`). -/
theorem C1_winner_disjointness_witness :
    (flatIDs (goClearWinners (goNew "w") 1).winners).Nodup :=
  C1_winner_disjointness _ (ReachR.clearWinners 1 (ReachR.fresh "w"))

/-- C2: `Draw(prizeNo)` fails with `ErrPrizeNo` when the prize is not
registered, `ErrPrizeAmount` when its amount is < 1, `ErrWinnersExistBeforeDraw`
when a winner entry (even an empty one) exists, `ErrNoAvailableParticipants`
when no participant is available, each failure leaving the state unchanged;
otherwise it returns min(amount, available) distinct available participants
and stores exactly that sequence as the prize's winner entry, with prizes and
participants untouched.  (Hypotheses: the participant map is id-keyed with
unique keys, which Go's map semantics guarantee.) -/
theorem C2_draw_spec (l : Lottery) (prizeNo : Int) (orc : List Nat) (ord : List String)
    (h1 : (l.participants.map Prod.fst).Nodup) (h2 : consistentP l.participants) :
    (mapLookup l.prizes prizeNo = none →
      goDrawOp l prizeNo orc ord = (.error .prizeNo, l)) ∧
    (∀ prize, mapLookup l.prizes prizeNo = some prize → prize.amount < 1 →
      goDrawOp l prizeNo orc ord = (.error .prizeAmount, l)) ∧
    (∀ prize ws, mapLookup l.prizes prizeNo = some prize → ¬ prize.amount < 1 →
      mapLookup l.winners prizeNo = some ws →
      goDrawOp l prizeNo orc ord = (.error .winnersExistBeforeDraw, l)) ∧
    (∀ prize, mapLookup l.prizes prizeNo = some prize → ¬ prize.amount < 1 →
      mapLookup l.winners prizeNo = none →
      availableParticipants l prizeNo ord = [] →
      goDrawOp l prizeNo orc ord = (.error .noAvailableParticipants, l)) ∧
    (∀ prize, mapLookup l.prizes prizeNo = some prize → ¬ prize.amount < 1 →
      mapLookup l.winners prizeNo = none →
      availableParticipants l prizeNo ord ≠ [] →
      ∃ ws, goDrawOp l prizeNo orc ord =
          (.ok ws, { l with winners := mapInsert l.winners prizeNo ws }) ∧
        mapLookup (goDrawOp l prizeNo orc ord).2.winners prizeNo = some ws ∧
        ws.length = min prize.amount.toNat (availableParticipants l prizeNo ord).length ∧
        (∀ w ∈ ws, w ∈ availableParticipants l prizeNo ord) ∧
        (ws.map Participant.id).Nodup ∧ ws.Nodup) := by
  refine ⟨goDrawOp_none orc ord, ?_, ?_, ?_, ?_⟩
  · intro prize hp ha
    exact goDrawOp_badAmount orc ord hp ha
  · intro prize ws hp ha hw
    exact goDrawOp_alreadyDrawn orc ord hp ha (by simp [hw])
  · intro prize hp ha hw hav
    exact goDrawOp_noAvail orc hp ha hw (by simp [hav])
  · intro prize hp ha hw hav
    have hlen : (availableParticipants l prizeNo ord).length ≠ 0 := by
      simpa [List.length_eq_zero] using hav
    have hsucc := goDrawOp_success orc hp ha hw hlen
    refine ⟨goDraw prize.amount (availableParticipants l prizeNo ord) orc, hsucc,
      ?_, ?_, goDraw_mem, goDraw_ids_nodup (avail_ids_nodup h1 h2),
      List.Nodup.of_map Participant.id (goDraw_ids_nodup (avail_ids_nodup h1 h2))⟩
    · rw [hsucc]
      exact mapLookup_mapInsert_self _ _ _
    · exact goDraw_length (by omega) hlen

/-- C2 witness: the success branch at a concrete session (prize 1 with 3
slots, participants a, b, c, d, a concrete oracle). -/
theorem C2_draw_spec_witness :
    ∃ ws, goDrawOp fix4 1 [0, 1, 0] [] =
        (.ok ws, { fix4 with winners := mapInsert fix4.winners 1 ws }) ∧
      mapLookup (goDrawOp fix4 1 [0, 1, 0] []).2.winners 1 = some ws ∧
      ws.length = min (Prize.mk 1 "First" 3 "gold").amount.toNat
        (availableParticipants fix4 1 []).length ∧
      (∀ w ∈ ws, w ∈ availableParticipants fix4 1 []) ∧
      (ws.map Participant.id).Nodup ∧ ws.Nodup :=
  (C2_draw_spec fix4 1 [0, 1, 0] [] (by decide) (by decide)).2.2.2.2
    ⟨1, "First", 3, "gold"⟩ (by decide) (by decide) (by decide) (by decide)

/-- C3: `Revoke(prizeNo, revokedSet)` (on a registered prize with a positive
amount and an existing winner entry) is atomic and exact: if some revoked id
is not a current winner of the prize it fails with `ErrRevokedWinnerNotMatch`
and the whole state is exactly as before; if every revoked id is a current
winner the call succeeds and the prize's entry afterwards holds exactly the
previous winners whose ids were not revoked (as a permutation — the map
iteration order — of the filtered previous sequence), the entry remaining
present (`Drawn`), possibly empty. -/
theorem C3_revoke_atomic (l : Lottery) (prizeNo : Int) (revoked : List Participant)
    (ord : List String) (prize : Prize) (ws : List Participant)
    (hp : mapLookup l.prizes prizeNo = some prize) (ha : ¬ prize.amount < 1)
    (hw : mapLookup l.winners prizeNo = some ws)
    (hwids : (ws.map Participant.id).Nodup)
    (hrids : (revoked.map Participant.id).Nodup) :
    ((∃ r ∈ revoked, r.id ∉ ws.map Participant.id) →
      goRevoke l prizeNo revoked ord = (.error .revokedWinnerNotMatch, l)) ∧
    ((∀ r ∈ revoked, r.id ∈ ws.map Participant.id) →
      ∃ ws2, goRevoke l prizeNo revoked ord =
          (.ok (), { l with winners := mapInsert l.winners prizeNo ws2 }) ∧
        mapLookup (goRevoke l prizeNo revoked ord).2.winners prizeNo = some ws2 ∧
        List.Perm ws2
          (ws.filter (fun w => decide (w.id ∉ revoked.map Participant.id)))) := by
  constructor
  · rintro ⟨r, hr, hrnot⟩
    have hmiss : ¬ ∀ q ∈ revoked, (mapLookup (participantSliceToMap ws) q.id).isSome := by
      intro hallq
      apply hrnot
      have hq := hallq r hr
      rw [mapLookup_isSome_iff_keys, sliceToMap_eq_of_nodup hwids, List.map_map] at hq
      exact hq
    exact goRevoke_loopError ord hp ha hw (revokeLoop_error_of_missing revoked _ hmiss)
  · intro hall
    rcases revoke_success_entry ord hp ha hw hwids hrids hall with ⟨ws2, heq, hperm⟩
    refine ⟨ws2, heq, ?_, hperm⟩
    rw [heq]
    exact mapLookup_mapInsert_self _ _ _

/-- C3 witness: revoking winner c of prize 1 in a concrete drawn session
(winners a, b, c) succeeds and leaves a permutation of [a, b]. -/
theorem C3_revoke_atomic_witness :
    ∃ ws2, goRevoke fix3d 1 [pc] ["b", "a"] =
        (.ok (), { fix3d with winners := mapInsert fix3d.winners 1 ws2 }) ∧
      mapLookup (goRevoke fix3d 1 [pc] ["b", "a"]).2.winners 1 = some ws2 ∧
      List.Perm ws2
        ([pa, pb, pc].filter (fun w => decide (w.id ∉ [pc].map Participant.id))) :=
  (C3_revoke_atomic fix3d 1 [pc] ["b", "a"] ⟨1, "First", 3, "gold"⟩ [pa, pb, pc]
    (by decide) (by decide) (by decide) (by decide) (by decide)).2 (by decide)

/-- C4: `Load` recomputes the checksum over the record's winners field; on
mismatch it fails with `ErrChecksum` leaving all three session maps (the
whole state) unchanged; on match it replaces prizes, participants and winners
with the record's maps, a missing/null map becoming the empty map.  Stated
for every digest function `h` (which models uppercase-hex md5). -/
theorem C4_load_checksum (h : String → String) (l : Lottery) (data : SaveData) :
    (h (winnersHashInput (data.winners.getD [])) ≠ data.checksum →
      goLoad h l data = (.error .checksum, l)) ∧
    (h (winnersHashInput (data.winners.getD [])) = data.checksum →
      goLoad h l data = (.ok (), { l with
        prizes := data.prizes.getD []
        participants := data.participants.getD []
        winners := data.winners.getD [] })) := by
  unfold goLoad
  constructor
  · intro hc
    rw [if_pos hc]
  · intro hc
    rw [if_neg (fun hne => hne hc)]

/-- C4 witness: loading a concrete record with a matching checksum replaces
the three maps (the missing prizes map becomes empty). -/
theorem C4_load_checksum_witness :
    goLoad (fun s => s) (goNew "n") c4rec = (.ok (), { goNew "n" with
      prizes := c4rec.prizes.getD []
      participants := c4rec.participants.getD []
      winners := c4rec.winners.getD [] }) :=
  (C4_load_checksum (fun s => s) (goNew "n") c4rec).2 (by decide)

/-- C5 (counterexample): two winners maps that differ in a winner's id (and
name) can serialize to the same hash input — ids and names are concatenated
without a delimiter — so they yield the same checksum under any digest
function, and `Load` accepts the tampered record instead of failing with
`ErrChecksum`. -/
theorem C5_counterexample :
    c5orig.winners ≠ c5tampered.winners ∧
    winnersHashInput [(1, [⟨"AB", "C"⟩])] = winnersHashInput [(1, [⟨"A", "BC"⟩])] ∧
    (goLoad (fun s => s) (goNew "s") c5tampered).1 = .ok () :=
  ⟨by decide, by decide, by decide⟩

/-- C5 (amended): modifying a record's winners is detected exactly when it
changes the digest of the serialized winners stream: if the digest function
is injective and the modified winners serialize differently, `Load` fails
with `ErrChecksum` (state unchanged); a modification that preserves the
serialized stream — possible by shifting characters across the undelimited
id/name boundary — is accepted by `Load` for every digest function. -/
theorem C5_tamper_detection (h : String → String) (l : Lottery) (data : SaveData)
    (w2 : List (Int × List Participant))
    (hsum : data.checksum = h (winnersHashInput (data.winners.getD []))) :
    (Function.Injective h →
      winnersHashInput w2 ≠ winnersHashInput (data.winners.getD []) →
      goLoad h l { data with winners := some w2 } = (.error .checksum, l)) ∧
    (winnersHashInput w2 = winnersHashInput (data.winners.getD []) →
      goLoad h l { data with winners := some w2 } = (.ok (), { l with
        prizes := data.prizes.getD []
        participants := data.participants.getD []
        winners := w2 })) := by
  constructor
  · intro hinj hne
    unfold goLoad
    rw [if_pos]
    intro hequal
    exact hne (hinj (hequal.trans hsum))
  · intro heq
    unfold goLoad
    rw [if_neg]
    · rfl
    · intro hdiff
      apply hdiff
      show h (winnersHashInput w2) = data.checksum
      rw [heq, ← hsum]

/-- C5 witness: a modification that does change the serialized stream is
rejected with `ErrChecksum` under the (injective) identity digest. -/
theorem C5_tamper_detection_witness :
    goLoad (fun s => s) (goNew "s") { c5orig with winners := some [(1, [⟨"X", "Y"⟩])] }
      = (.error .checksum, goNew "s") :=
  (C5_tamper_detection (fun s => s) (goNew "s") c5orig [(1, [⟨"X", "Y"⟩])]
    (by decide)).1 (by intro a b hab; exact hab) (by decide)

/-- C6 (counterexample): in the reachable state `fix3d` (winners a, b, c of
prize 1, listed in draw order), a successful `Revoke` of c under a map
iteration order that enumerates b before a stores [b, a]: the remaining
winners are not in their previous relative order, because `Revoke` rebuilds
the sequence through an (unordered) Go map. -/
theorem C6_counterexample :
    Reach fix3d ∧
    mapLookup fix3d.winners 1 = some [pa, pb, pc] ∧
    (goRevoke fix3d 1 [pc] ["b", "a"]).1 = .ok () ∧
    mapLookup (goRevoke fix3d 1 [pc] ["b", "a"]).2.winners 1 = some [pb, pa] ∧
    [pb, pa] ≠ [pa, pb, pc].filter (fun w => decide (w.id ∉ [pc].map Participant.id)) :=
  ⟨Reach.drawOp 1 [0, 1, 0] []
    (Reach.loadParticipants rows3 (Reach.setPrize 1 "First" 3 "gold" (Reach.fresh "s"))),
   by decide, by decide, by decide, by decide⟩

/-- C6 (amended): a successful `Redraw` appends the newly drawn winners after
the existing ones (existing winners first, in their stored order); a
successful `Revoke` stores the remaining (non-revoked) winners in the map's
iteration order — some permutation of the previous winners whose ids were
not revoked.  Their previous relative order is not preserved in general. -/
theorem C6_draw_order (l : Lottery) (prizeNo : Int) (prize : Prize)
    (ws : List Participant)
    (hp : mapLookup l.prizes prizeNo = some prize)
    (hw : mapLookup l.winners prizeNo = some ws) :
    (∀ amount orc ord newWs l2,
      goRedraw l prizeNo amount orc ord = (.ok newWs, l2) →
      mapLookup l2.winners prizeNo = some (ws ++ newWs)) ∧
    (∀ revoked ord l2, (ws.map Participant.id).Nodup →
      (revoked.map Participant.id).Nodup →
      goRevoke l prizeNo revoked ord = (.ok (), l2) →
      ∃ ws2, mapLookup l2.winners prizeNo = some ws2 ∧
        List.Perm ws2
          (ws.filter (fun w => decide (w.id ∉ revoked.map Participant.id)))) := by
  constructor
  · intro amount orc ord newWs l2 hok
    rcases goRedraw_state_cases l prizeNo amount orc ord with
      ⟨e, he⟩ | ⟨prize2, ws2, hp2, ha2, hw2, hcap2, hav2, heq⟩
    · rw [he] at hok
      rw [Prod.mk.injEq] at hok
      simp at hok
    · rw [heq] at hok
      rw [Prod.mk.injEq] at hok
      obtain ⟨h1, h2⟩ := hok
      simp only [Except.ok.injEq] at h1
      have hws : ws2 = ws := by
        have := hw2.symm.trans hw
        simpa using this
      rw [← h2, ← h1, hws]
      exact mapLookup_mapInsert_self _ _ _
  · intro revoked ord l2 hwids hrids hok
    by_cases ha : prize.amount < 1
    · rw [goRevoke_badAmount revoked ord hp ha, Prod.mk.injEq] at hok
      simp at hok
    have hall : ∀ r ∈ revoked, r.id ∈ ws.map Participant.id := by
      by_contra hmiss
      push_neg at hmiss
      rcases hmiss with ⟨r, hr, hrnot⟩
      have hmiss2 : ¬ ∀ q ∈ revoked,
          (mapLookup (participantSliceToMap ws) q.id).isSome := by
        intro hallq
        apply hrnot
        have hq := hallq r hr
        rw [mapLookup_isSome_iff_keys, sliceToMap_eq_of_nodup hwids,
          List.map_map] at hq
        exact hq
      rw [goRevoke_loopError ord hp ha hw
        (revokeLoop_error_of_missing revoked _ hmiss2), Prod.mk.injEq] at hok
      simp at hok
    rcases revoke_success_entry ord hp ha hw hwids hrids hall with ⟨ws2, heq, hperm⟩
    rw [heq, Prod.mk.injEq] at hok
    obtain ⟨_, h2⟩ := hok
    refine ⟨ws2, ?_, hperm⟩
    rw [← h2]
    exact mapLookup_mapInsert_self _ _ _

/-- C6 witness: the Redraw-append part at a concrete drawn session (winners
a, b, d; a zero-amount Redraw succeeds and appends nothing). -/
theorem C6_draw_order_witness :
    mapLookup (goRedraw fix4d 1 0 [] []).2.winners 1 = some ([pa, pb, pd] ++ []) :=
  (C6_draw_order fix4d 1 ⟨1, "First", 3, "gold"⟩ [pa, pb, pd]
    (by decide) (by decide)).1 0 [] [] [] (goRedraw fix4d 1 0 [] []).2 (by decide)

/-- C7 (counterexample): after `SetPrize` lowers prize 1's amount to 1 while
three winners are recorded, `Redraw(1, -2)` passes the capacity check
(-2 > 1 - 3 is false), draws nobody (non-positive amount) and succeeds — and
after this successful Redraw the winner count 3 exceeds the configured
amount 1. -/
theorem C7_counterexample :
    Reach fix4low ∧
    mapLookup fix4low.prizes 1 = some ⟨1, "First", 1, "gold"⟩ ∧
    (goRedraw fix4low 1 (-2) [] []).1 = .ok [] ∧
    mapLookup (goRedraw fix4low 1 (-2) [] []).2.winners 1 = some [pa, pb, pd] ∧
    ¬ (([pa, pb, pd].length : Int) ≤ (1 : Int)) :=
  ⟨Reach.setPrize 1 "First" 1 "gold" (Reach.drawOp 1 [0, 1, 0] []
      (Reach.loadParticipants rows4 (Reach.setPrize 1 "First" 3 "gold" (Reach.fresh "s")))),
   by decide, by decide, by decide, by decide⟩

/-- C7 (amended): with the prize registered (amount ≥ 1) and already drawn,
`Redraw(prizeNo, extraAmount)` fails with `ErrRedrawPrizeAmount`, leaving the
state unchanged, whenever extraAmount > amount - current winner count; and
after every successful Redraw the prize's winner count is at most
max(previous count, configured amount): Redraw never pushes a count that was
within the configured amount past it, but it does not repair a count already
above the amount (reachable via `SetPrize`), where a non-positive extraAmount
can still succeed. -/
theorem C7_redraw_capacity (l : Lottery) (prizeNo : Int) (amount : Int)
    (orc : List Nat) (ord : List String) (prize : Prize) (ws : List Participant)
    (hp : mapLookup l.prizes prizeNo = some prize) (ha : ¬ prize.amount < 1)
    (hw : mapLookup l.winners prizeNo = some ws) :
    (amount > prize.amount - (ws.length : Int) →
      goRedraw l prizeNo amount orc ord = (.error .redrawPrizeAmount, l)) ∧
    (∀ newWs l2, goRedraw l prizeNo amount orc ord = (.ok newWs, l2) →
      ∃ ws2, mapLookup l2.winners prizeNo = some ws2 ∧
        (ws2.length : Int) ≤ max (ws.length : Int) prize.amount) := by
  constructor
  · intro hcap
    exact goRedraw_capacity amount orc ord hp ha hw hcap
  · intro newWs l2 hok
    rcases goRedraw_state_cases l prizeNo amount orc ord with
      ⟨e, he⟩ | ⟨prize2, ws2, hp2, ha2, hw2, hcap2, hav2, heq⟩
    · rw [he] at hok
      rw [Prod.mk.injEq] at hok
      simp at hok
    · rw [heq] at hok
      rw [Prod.mk.injEq] at hok
      obtain ⟨h1, h2⟩ := hok
      have hws : ws2 = ws := by
        have := hw2.symm.trans hw
        simpa using this
      have hpz : prize2 = prize := by
        have := hp2.symm.trans hp
        simpa using this
      refine ⟨ws ++ goDraw amount (availableParticipants l prizeNo ord) orc, ?_, ?_⟩
      · rw [← h2, hws]
        exact mapLookup_mapInsert_self _ _ _
      · rw [hws, hpz] at hcap2
        have hle := goDraw_length_le amount (availableParticipants l prizeNo ord) orc
        have hgd : amount ≤ 0 →
            goDraw amount (availableParticipants l prizeNo ord) orc = [] := by
          intro hneg
          unfold goDraw
          rw [if_pos (Or.inl hneg)]
        rw [List.length_append]
        by_cases hneg : amount ≤ 0
        · rw [hgd hneg]
          simp
        · push_neg at hcap2 hneg
          have : ((goDraw amount (availableParticipants l prizeNo ord) orc).length : Int)
              ≤ amount := by
            omega
          push_cast
          omega

/-- C7 witness: the capacity-error part at a concrete fully-drawn session
(amount 3, three winners, extra request 1 > 0 remaining slots). -/
theorem C7_redraw_capacity_witness :
    goRedraw fix3d 1 1 [] [] = (.error .redrawPrizeAmount, fix3d) :=
  (C7_redraw_capacity fix3d 1 1 [] [] ⟨1, "First", 3, "gold"⟩ [pa, pb, pc]
    (by decide) (by decide) (by decide)).1 (by decide)

theorem loadPrizesLoop_fail {e : Err} : ∀ (rows : List (List String)) (l : Lottery)
    (k : Nat), k < rows.length →
    (∀ r ∈ rows.take k, (parsePrizeRow r).isOk) →
    parsePrizeRow (rows.getD k []) = .error e →
    loadPrizesLoop l rows =
      (.error e, { l with prizes := applyPrizeRows l.prizes (rows.take k) }) := by
  intro rows
  induction rows with
  | nil =>
    intro l k hk
    simp at hk
  | cons row rest ih =>
    intro l k hk hok hbad
    cases k with
    | zero =>
      rw [List.getD_cons_zero] at hbad
      rw [loadPrizesLoop, hbad]
      rw [List.take_zero]
      rfl
    | succ k =>
      have hrow := hok row (by
        rw [List.take_succ_cons]
        exact List.mem_cons_self _ _)
      rcases hpr : parsePrizeRow row with e2 | prize
      · rw [hpr] at hrow
        simp [Except.isOk, Except.toBool] at hrow
      rw [loadPrizesLoop, hpr]
      rw [List.take_succ_cons]
      have happ : applyPrizeRows l.prizes (row :: rest.take k)
          = applyPrizeRows (mapInsert l.prizes prize.no prize) (rest.take k) := by
        rw [applyPrizeRows, hpr]
      rw [happ]
      rw [List.getD_cons_succ] at hbad
      exact ih { l with prizes := mapInsert l.prizes prize.no prize } k
        (by simpa using Nat.lt_of_succ_lt_succ (by simpa using hk))
        (fun r hr => hok r (by rw [List.take_succ_cons]; exact List.mem_cons_of_mem _ hr))
        hbad

/-- C8: `LoadPrizes` clears the prize map and then commits data rows in
order; if the first failing data row is row k (0-based, after the header),
the call returns `ErrParticipantsCSV` (the `MalformedRecord` error) for a
field count other than 4 and `ErrInvalidNumber` for a non-numeric no/amount,
and the resulting prize map contains exactly the rows parsed before the
failing row — not the pre-call map, and not the full input. -/
theorem C8_load_prizes_midfail (l : Lottery) (header : List String)
    (dataRows : List (List String)) (k : Nat) (e : Err)
    (hk : k < dataRows.length)
    (hok : ∀ r ∈ dataRows.take k, (parsePrizeRow r).isOk)
    (hbad : parsePrizeRow (dataRows.getD k []) = .error e) :
    goLoadPrizesCSV l (header :: dataRows) =
      (.error e, { l with prizes := applyPrizeRows [] (dataRows.take k) }) ∧
    ((dataRows.getD k []).length ≠ 4 → e = .participantsCSV) ∧
    ((dataRows.getD k []).length = 4 → e = .invalidNumber) := by
  refine ⟨?_, ?_, ?_⟩
  · unfold goLoadPrizesCSV
    have hfail := loadPrizesLoop_fail dataRows { l with prizes := [] } k hk hok hbad
    simpa using hfail
  · intro hlen
    unfold parsePrizeRow at hbad
    rw [if_pos hlen] at hbad
    cases hbad
    rfl
  · intro hlen
    unfold parsePrizeRow at hbad
    rw [if_neg (fun hne => hne hlen)] at hbad
    rcases h0 : goAtoi (trimSpaces ((dataRows.getD k []).getD 0 "")) with _ | no
    · rw [h0] at hbad
      cases hbad
      rfl
    · rw [h0] at hbad
      rcases h2 : goAtoi (trimSpaces ((dataRows.getD k []).getD 2 "")) with _ | amount
      · rw [h2] at hbad
        cases hbad
        rfl
      · rw [h2] at hbad
        cases hbad

/-- C8 witness: a malformed second data row (2 fields) aborts the load with
the first row already committed to the (previously cleared) prize map. -/
theorem C8_load_prizes_midfail_witness :
    goLoadPrizesCSV (goNew "s")
        [["no", "name", "amount", "desc"], ["1", "First", "3", "gold"], ["2", "Second"]] =
      (.error .participantsCSV, { goNew "s" with prizes := applyPrizeRows [] ([["1", "First", "3", "gold"], ["2", "Second"]].take 1) }) :=
  (C8_load_prizes_midfail (goNew "s") ["no", "name", "amount", "desc"]
    [["1", "First", "3", "gold"], ["2", "Second"]] 1 .participantsCSV
    (by decide) (by decide) (by decide)).1

/-- C9: `ClearWinners(prizeNo)` creates an empty winner entry for any prize
number, so a subsequent `Draw` on a registered prize (amount ≥ 1) that was
only ever cleared fails with `ErrWinnersExistBeforeDraw` (AlreadyDrawn);
`ClearAllWinners` removes the entry entirely (state NotDrawn), after which
`Draw` can succeed (given available participants). -/
theorem C9_clear_creates_drawn (l : Lottery) (prizeNo : Int) (orc : List Nat)
    (ord : List String) :
    mapLookup (goClearWinners l prizeNo).winners prizeNo = some [] ∧
    (∀ prize, mapLookup l.prizes prizeNo = some prize → ¬ prize.amount < 1 →
      goDrawOp (goClearWinners l prizeNo) prizeNo orc ord =
        (.error .winnersExistBeforeDraw, goClearWinners l prizeNo)) ∧
    mapLookup (goClearAllWinners l).winners prizeNo = none ∧
    (∀ prize, mapLookup l.prizes prizeNo = some prize → ¬ prize.amount < 1 →
      availableParticipants (goClearAllWinners l) prizeNo ord ≠ [] →
      ∃ ws l2, goDrawOp (goClearAllWinners l) prizeNo orc ord = (.ok ws, l2)) := by
  refine ⟨mapLookup_mapInsert_self _ _ _, ?_, rfl, ?_⟩
  · intro prize hp ha
    have hp2 : mapLookup (goClearWinners l prizeNo).prizes prizeNo = some prize := hp
    refine goDrawOp_alreadyDrawn orc ord hp2 ha ?_
    have : mapLookup (goClearWinners l prizeNo).winners prizeNo = some [] :=
      mapLookup_mapInsert_self _ _ _
    rw [this]
    rfl
  · intro prize hp ha hav
    have hp2 : mapLookup (goClearAllWinners l).prizes prizeNo = some prize := hp
    have hw2 : mapLookup (goClearAllWinners l).winners prizeNo = none := rfl
    have hlen : (availableParticipants (goClearAllWinners l) prizeNo ord).length ≠ 0 := by
      simpa [List.length_eq_zero] using hav
    exact ⟨_, _, goDrawOp_success orc hp2 ha hw2 hlen⟩

/-- C9 witness: on the concrete session `fix3`, clearing prize 1 (never
drawn) and then drawing it fails with AlreadyDrawn. -/
theorem C9_clear_creates_drawn_witness :
    goDrawOp (goClearWinners fix3 1) 1 [0] [] =
      (.error .winnersExistBeforeDraw, goClearWinners fix3 1) :=
  (C9_clear_creates_drawn fix3 1 [0] []).2.1 ⟨1, "First", 3, "gold"⟩
    (by decide) (by decide)

/-- C10: `AvailableParticipants` ignores its prizeNo argument: for any two
prize numbers (and any two map iteration orders) the results are the same up
to iteration order — the same set — namely every registered participant
whose key is not among any prize's current winner ids. -/
theorem C10_available_ignores_prize (l : Lottery) (p1 p2 : Int)
    (ord1 ord2 : List String) :
    List.Perm (availableParticipants l p1 ord1) (availableParticipants l p2 ord2) ∧
    ((l.participants.map Prod.fst).Nodup →
      ∀ x, x ∈ availableParticipants l p1 ord1 ↔
        ∃ k, (k, x) ∈ l.participants ∧ k ∉ flatIDs l.winners) := by
  constructor
  · rw [availableParticipants_eq, availableParticipants_eq]
    unfold participantMapToSlice
    exact List.Perm.filterMap _ ((iterKeys_perm _ ord1).trans (iterKeys_perm _ ord2).symm)
  · intro hn x
    rw [availableParticipants_eq]
    rw [mem_slice_iff (keysNodup_eraseAll _ hn)]
    constructor
    · rintro ⟨k, hk⟩
      rcases mem_eraseAll.mp hk with ⟨hm, hnk⟩
      exact ⟨k, hm, hnk⟩
    · rintro ⟨k, hm, hnk⟩
      exact ⟨k, mem_eraseAll.mpr ⟨hm, hnk⟩⟩

/-- C10 witness: the theorem at the concrete drawn session `fix3d` with two
different prize numbers and iteration orders. -/
theorem C10_available_ignores_prize_witness :
    List.Perm (availableParticipants fix3d 5 []) (availableParticipants fix3d 7 ["x"]) ∧
    (pa ∈ availableParticipants fix3d 5 [] ↔
      ∃ k, (k, pa) ∈ fix3d.participants ∧ k ∉ flatIDs fix3d.winners) :=
  ⟨(C10_available_ignores_prize fix3d 5 7 [] ["x"]).1,
   (C10_available_ignores_prize fix3d 5 7 [] ["x"]).2 (by decide) pa⟩

end LuckyDraw
